import Mathlib

/-!
Verification of the striped cuckoo hash set (`StripedCuckooHashSet` in
`src/cuckoo/gemini-cuckoo-1.cpp`) against its natural-language specification.

The C++ class is shallowly embedded for its single-threaded (quiescent)
semantics: the stripe locks provide mutual exclusion only, so with one thread
every lock acquisition succeeds immediately, the capacity re-check after
locking always passes, and each public operation is a pure state transformer.
`size_t` arithmetic is modelled as `Nat` with explicit reduction modulo
`2 ^ 64` where the C++ can wrap (the hash mixing in `h2`, and the
`fetch_add`/`fetch_sub` on the live-element counter).  The element type `T`
is instantiated at `int` in the program; keys are modelled as `Nat` and
`std::hash<T>` as an arbitrary function parameter `hf : Nat → Nat`
(libstdc++'s `std::hash<int>` is the identity on the non-negative ints the
benchmark generates, embodied below by `hfId`).  `std::bad_alloc` is the one
behavior outside the model: allocation never fails here.
-/

set_option maxRecDepth 4000

namespace StripedCuckoo

/-- Constant `NUM_TABLES = 2` of the source; the two tables are separate fields here. -/
def NUM_TABLES : Nat := 2

/-- Constant `NUM_LOCKS = 32`: fixed number of stripe locks. -/
def NUM_LOCKS : Nat := 32

/-- Constant `MAX_KICK_LIMIT = 100`: maximum displacement attempts before resize. -/
def MAX_KICK_LIMIT : Nat := 100

/-- Modulus of C++ `size_t` arithmetic (64-bit). -/
def U64 : Nat := 2 ^ 64

/-- The multiplicative mixing constant `0x85ebca6b` used by `h2`. -/
def MIX : Nat := 0x85ebca6b

/-- The hard capacity ceiling `1 << 29` checked by `resize`. -/
def CAP_CEILING : Nat := 2 ^ 29

/-- A `std::hash` value is a `size_t`: reduce the abstract hash modulo `2^64`. -/
def hval (hf : Nat → Nat) (x : Nat) : Nat := hf x % U64

/-- Hash `h1(x, cap) = hash(x) % cap`, returning 0 when the capacity is 0. -/
def h1 (hf : Nat → Nat) (x cap : Nat) : Nat :=
  if cap = 0 then 0 else hval hf x % cap

/-- Hash `h2(x, cap) = ((h ^ (h >> 16)) * 0x85ebca6b) % cap` in `size_t`
arithmetic, returning 0 when the capacity is 0. -/
def h2 (hf : Nat → Nat) (x cap : Nat) : Nat :=
  if cap = 0 then 0
  else ((hval hf x ^^^ (hval hf x >>> 16)) * MIX) % U64 % cap

/-- Model of libstdc++ `std::hash<int>` on the non-negative keys the program
generates: the identity. -/
def hfId : Nat → Nat := fun n => n

/-- The state of a `StripedCuckooHashSet`: the two tables (vectors of
`std::optional<T>`), the published per-table `capacity`, and the
`current_size` live-element counter.  The stripe locks carry no data. -/
structure HashSet where
  t0 : List (Option Nat)
  t1 : List (Option Nat)
  capacity : Nat
  current_size : Nat
  deriving DecidableEq, Repr

/-- Increment `current_size.fetch_add(1)` on a `size_t`. -/
def incSize (n : Nat) : Nat := (n + 1) % U64

/-- Decrement `current_size.fetch_sub(1)` on a `size_t` (wraps at zero). -/
def decSize (n : Nat) : Nat := (n + (U64 - 1)) % U64

/-- Computation `get_lock_indices`: the two candidate stripe indices, ordered
`(min, max)`; `(0, 0)` when the capacity is 0. -/
def get_lock_indices (hf : Nat → Nat) (x cap : Nat) : Nat × Nat :=
  if cap = 0 then (0, 0)
  else
    let lock1 := h1 hf x cap % NUM_LOCKS
    let lock2 := h2 hf x cap % NUM_LOCKS
    (min lock1 lock2, max lock1 lock2)

/-- The sequence of stripe indices a single-key operation (`add`, `remove`,
`contains`) locks, in acquisition order: `acquire_lock1` takes the first
component of `get_lock_indices`, then `acquire_lock2` takes the second,
skipped entirely when the two coincide. -/
def opLockSeq (hf : Nat → Nat) (x cap : Nat) : List Nat :=
  let p := get_lock_indices hf x cap
  if p.1 = p.2 then [p.1] else [p.1, p.2]

/-- The sequence of stripe indices `resize` locks, in acquisition order:
its loop takes `locks[0] .. locks[NUM_LOCKS-1]`. -/
def resizeLockSeq : List Nat := List.range NUM_LOCKS

/-- Source `contains_unsafe(x, cap)`: check slot `h1` of table 0 and slot `h2` of
table 1, with the source's bounds guards (`table.size() > 0` and
`table.size() > 1` always hold in the two-table embedding). -/
def contains_aux (hf : Nat → Nat) (x cap : Nat) (t0 t1 : List (Option Nat)) : Bool :=
  if cap = 0 then false
  else
    (decide (h1 hf x cap < cap) && decide (h1 hf x cap < t0.length) &&
      (t0.getD (h1 hf x cap) none == some x)) ||
    (decide (h2 hf x cap < cap) && decide (h2 hf x cap < t1.length) &&
      (t1.getD (h2 hf x cap) none == some x))

/-- Outcome of a bounded cuckoo displacement chain: the item (or the end of
its chain) was placed, or the kick limit ran out leaving a displaced item in
hand, or a bounds guard fired. -/
inductive KickRes where
  | placed : List (Option Nat) → List (Option Nat) → KickRes
  | noslot : Nat → List (Option Nat) → List (Option Nat) → KickRes
  | oob : List (Option Nat) → List (Option Nat) → KickRes
  deriving DecidableEq, Repr

/-- The cuckoo displacement chain shared by `add` and `add_cuckoo_unsafe`:
at each step compute the current item's slot in the current table; abort if
the bounds guard fires; place the item if the slot is empty; otherwise swap
with the occupant and continue in the other table.  `fuel` counts the
remaining kicks out of `MAX_KICK_LIMIT`. -/
def kickLoop (hf : Nat → Nat) (cap : Nat) :
    Nat → Nat → Nat → List (Option Nat) → List (Option Nat) → KickRes
  | 0, cur, _, t0, t1 => .noslot cur t0 t1
  | fuel + 1, cur, 0, t0, t1 =>
    if cap ≤ h1 hf cur cap ∨ t0.length ≤ h1 hf cur cap then .oob t0 t1
    else
      match t0.getD (h1 hf cur cap) none with
      | none => .placed (t0.set (h1 hf cur cap) (some cur)) t1
      | some victim =>
        kickLoop hf cap fuel victim 1 (t0.set (h1 hf cur cap) (some cur)) t1
  | fuel + 1, cur, _ + 1, t0, t1 =>
    if cap ≤ h2 hf cur cap ∨ t1.length ≤ h2 hf cur cap then .oob t0 t1
    else
      match t1.getD (h2 hf cur cap) none with
      | none => .placed t0 (t1.set (h2 hf cur cap) (some cur))
      | some victim =>
        kickLoop hf cap fuel victim 0 t0 (t1.set (h2 hf cur cap) (some cur))

/-- Source `add_cuckoo_unsafe(item, target_table, target_capacity)`, used only by
`resize`: run the displacement chain on the target tables; any failure
(kick limit or bounds guard) reports `false`, leaving the partially kicked
tables in place exactly as the by-reference C++ mutation does. -/
def add_cuckoo (hf : Nat → Nat) (item : Nat) (t0 t1 : List (Option Nat))
    (cap : Nat) : Bool × List (Option Nat) × List (Option Nat) :=
  if cap = 0 then (false, t0, t1)
  else
    match kickLoop hf cap MAX_KICK_LIMIT item 0 t0 t1 with
    | .placed a b => (true, a, b)
    | .noslot _ a b => (false, a, b)
    | .oob a b => (false, a, b)

/-- Accumulator of the rehash loop in `resize`: the new tables being filled,
the `rehash_failures` count and the `current_elements_found` count. -/
structure RehashAcc where
  nt0 : List (Option Nat)
  nt1 : List (Option Nat)
  fails : Nat
  found : Nat
  deriving DecidableEq, Repr

/-- One pass of the rehash loop over one old table: visit slots `j` with
`j < old_capacity` (the `bound` countdown) and `j < table[i].size()` (the
list end); reinsert every live element into the new tables and clear the
old slot afterwards (`table[i][j].reset()`), exactly as the source does on
both the success and the failure path.  Returns the cleared old table and
the updated accumulator. -/
def rehashPass (hf : Nat → Nat) (newCap : Nat) :
    List (Option Nat) → Nat → RehashAcc → List (Option Nat) × RehashAcc
  | [], _, acc => ([], acc)
  | e :: rest, 0, acc => (e :: rest, acc)
  | e :: rest, bound + 1, acc =>
    match e with
    | none =>
      let r := rehashPass hf newCap rest bound acc
      (none :: r.1, r.2)
    | some k =>
      let ins := add_cuckoo hf k acc.nt0 acc.nt1 newCap
      let acc' : RehashAcc :=
        ⟨ins.2.1, ins.2.2, acc.fails + (if ins.1 then 0 else 1), acc.found + 1⟩
      let r := rehashPass hf newCap rest bound acc'
      (none :: r.1, r.2)

/-- Operation `resize()`, single-threaded: with all stripes held, abort above the hard
capacity ceiling (`old_capacity > 1 << 29`); otherwise allocate two fresh
tables at double capacity (16 from capacity 0), rehash every live element,
and commit tables, capacity and recomputed size only when no reinsertion
failed — otherwise keep the old capacity and counter together with the
already-cleared old tables. -/
def resize (hf : Nat → Nat) (s : HashSet) : HashSet :=
  if CAP_CEILING < s.capacity then s
  else
    let newCap := if s.capacity = 0 then 16 else s.capacity * 2
    let p0 := rehashPass hf newCap s.t0 s.capacity
      ⟨List.replicate newCap none, List.replicate newCap none, 0, 0⟩
    let p1 := rehashPass hf newCap s.t1 s.capacity p0.2
    if p1.2.fails = 0 then
      ⟨p1.2.nt0, p1.2.nt1, newCap, p1.2.found⟩
    else
      ⟨p0.1, p1.1, s.capacity, s.current_size⟩

/-- The `while (attempts < max_resize_attempts)` loop of `add`, with
`fuel = max_resize_attempts - attempts`: bail out on capacity 0, return
`false` on a duplicate, run the kick chain; on success place and bump the
counter; on kick exhaustion (or a bounds guard, which restores the original
item) release, `resize`, and retry with the displaced item unless the
attempt budget is spent.  The third component counts `resize` invocations. -/
def addLoop (hf : Nat → Nat) : Nat → Nat → HashSet → Bool × HashSet × Nat
  | 0, _, s => (false, s, 0)
  | fuel + 1, x, s =>
    if s.capacity = 0 then (false, s, 0)
    else if contains_aux hf x s.capacity s.t0 s.t1 then (false, s, 0)
    else
      match kickLoop hf s.capacity MAX_KICK_LIMIT x 0 s.t0 s.t1 with
      | .placed a b => (true, ⟨a, b, s.capacity, incSize s.current_size⟩, 0)
      | .noslot cur a b =>
        if fuel = 0 then (false, ⟨a, b, s.capacity, s.current_size⟩, 0)
        else
          let r := addLoop hf fuel cur (resize hf ⟨a, b, s.capacity, s.current_size⟩)
          (r.1, r.2.1, r.2.2 + 1)
      | .oob a b =>
        if fuel = 0 then (false, ⟨a, b, s.capacity, s.current_size⟩, 0)
        else
          let r := addLoop hf fuel x (resize hf ⟨a, b, s.capacity, s.current_size⟩)
          (r.1, r.2.1, r.2.2 + 1)

/-- Operation `add(x)`: the retry loop with `max_resize_attempts = 2`. -/
def add (hf : Nat → Nat) (s : HashSet) (x : Nat) : Bool × HashSet :=
  ((addLoop hf 2 x s).1, (addLoop hf 2 x s).2.1)

/-- Number of `resize` calls a single `add(x)` performs. -/
def addResizes (hf : Nat → Nat) (s : HashSet) (x : Nat) : Nat :=
  (addLoop hf 2 x s).2.2

/-- Operation `remove(x)`: check slot `h1` of table 0 then slot `h2` of table 1 under
the current capacity; clear the first hit and decrement the counter. -/
def remove (hf : Nat → Nat) (s : HashSet) (x : Nat) : Bool × HashSet :=
  if s.capacity = 0 then (false, s)
  else
    let pos1 := h1 hf x s.capacity
    if pos1 < s.capacity ∧ pos1 < s.t0.length ∧ s.t0.getD pos1 none = some x then
      (true, ⟨s.t0.set pos1 none, s.t1, s.capacity, decSize s.current_size⟩)
    else
      let pos2 := h2 hf x s.capacity
      if pos2 < s.capacity ∧ pos2 < s.t1.length ∧ s.t1.getD pos2 none = some x then
        (true, ⟨s.t0, s.t1.set pos2 none, s.capacity, decSize s.current_size⟩)
      else (false, s)

/-- Operation `contains(x)`: capacity-0 guard, then the locked `contains_unsafe`. -/
def contains (hf : Nat → Nat) (s : HashSet) (x : Nat) : Bool :=
  if s.capacity = 0 then false
  else contains_aux hf x s.capacity s.t0 s.t1

/-- Operation `size()`: relaxed read of the live-element counter. -/
def size (s : HashSet) : Nat := s.current_size

/-- Operation `get_capacity()`. -/
def get_capacity (s : HashSet) : Nat := s.capacity

/-- The constructor: capacity 0 is replaced by 16, both tables are allocated
at that capacity, the counter starts at 0. -/
def create (initial_capacity : Nat) : HashSet :=
  let cap := if initial_capacity = 0 then 16 else initial_capacity
  ⟨List.replicate cap none, List.replicate cap none, cap, 0⟩

/-- States reachable by single-threaded sequences of public operations
(plus bare `resize` steps, which `add` also performs internally). -/
inductive Reachable (hf : Nat → Nat) : HashSet → Prop
  | create (c : Nat) : Reachable hf (create c)
  | add (s : HashSet) (x : Nat) : Reachable hf s → Reachable hf (add hf s x).2
  | remove (s : HashSet) (x : Nat) : Reachable hf s → Reachable hf (remove hf s x).2
  | resize (s : HashSet) : Reachable hf s → Reachable hf (resize hf s)

/-- Number of occupied slots of one table. -/
def occCount : List (Option Nat) → Nat
  | [] => 0
  | e :: r => (if e.isSome then 1 else 0) + occCount r

/-- Number of slots of one table holding the key `k`. -/
def cnt (k : Nat) : List (Option Nat) → Nat
  | [] => 0
  | e :: r => (if e = some k then 1 else 0) + cnt k r

/-- The keys stored in one table, in slot order. -/
def slotKeys (t : List (Option Nat)) : List Nat := t.filterMap id

/-- Propositional well-placement of one table: every stored key sits at the
index the table's slot function (`h1` or `h2` under the current capacity)
assigns to it. -/
def wellPlacedP (slot : Nat → Nat) (t : List (Option Nat)) : Prop :=
  ∀ i k, t.getD i none = some k → i = slot k

/-- Executable well-placement check of one table. -/
def wellPlacedB (slot : Nat → Nat) (t : List (Option Nat)) : Bool :=
  (List.range t.length).all fun i =>
    match t.getD i none with
    | none => true
    | some k => slot k == i

/-- The invariant carried along every cuckoo displacement chain and, for the
current tables, by every reachable state: tables of length `cap`, every
stored key at its own hash slot, and no key stored twice across the two
tables. -/
structure ChainInv (hf : Nat → Nat) (cap : Nat) (t0 t1 : List (Option Nat)) : Prop where
  len0 : t0.length = cap
  len1 : t1.length = cap
  wp0 : wellPlacedP (fun k => h1 hf k cap) t0
  wp1 : wellPlacedP (fun k => h2 hf k cap) t1
  nodup : ∀ k, cnt k t0 + cnt k t1 ≤ 1

/-- The placement invariant of a state: positive capacity plus `ChainInv`
of its two tables. -/
def Inv (hf : Nat → Nat) (s : HashSet) : Prop :=
  0 < s.capacity ∧ ChainInv hf s.capacity s.t0 s.t1

/-- Decidable well-formedness of a quiescent state: the placement invariant
(by its executable checks), a machine-realizable capacity bound, and the
live counter agreeing with the occupied-slot count. -/
def WF (hf : Nat → Nat) (s : HashSet) : Prop :=
  0 < s.capacity ∧ s.capacity ≤ 2 ^ 60 ∧
  s.t0.length = s.capacity ∧ s.t1.length = s.capacity ∧
  wellPlacedB (fun k => h1 hf k s.capacity) s.t0 = true ∧
  wellPlacedB (fun k => h2 hf k s.capacity) s.t1 = true ∧
  (slotKeys s.t0 ++ slotKeys s.t1).Nodup ∧
  s.current_size = occCount s.t0 + occCount s.t1

instance (hf : Nat → Nat) (s : HashSet) : Decidable (WF hf s) := by
  unfold WF; exact inferInstance

/-- The reachable state used by the C1 counterexample: construct with
capacity 2, then `add 1` and `add 5` (all three of 1, 5, 9 share the
candidate slots `t0[1]`/`t1[1]` at capacity 2 and `t0[1]`/`t1[3]` at
capacity 4 under the identity key hash). -/
def c1S : HashSet := (add hfId (add hfId (create 2) 1).2 5).2

/-- The explicit pre-resize state used for C2: capacity 2 with the live
keys 1, 5, 9 (all sharing the candidate pair `t0[1]`/`t1[3]` at the doubled
capacity 4 under the identity key hash), so rehashing the third key
exhausts the 100-kick relocation bound and the resize aborts. -/
def c2S : HashSet := ⟨[some 1, some 5], [some 9, none], 2, 3⟩


/-! ### Basic facts about the list primitives used by the embedding -/

theorem getD_set_self (l : List (Option Nat)) (i : Nat) (a : Option Nat)
    (h : i < l.length) : (l.set i a).getD i none = a := by
  induction l generalizing i with
  | nil => simp at h
  | cons e r ih =>
    cases i with
    | zero => simp
    | succ n =>
      simp only [List.set_cons_succ, List.getD_cons_succ]
      exact ih n (by simpa using h)

theorem getD_set_ne (l : List (Option Nat)) (i j : Nat) (a : Option Nat)
    (h : i ≠ j) : (l.set i a).getD j none = l.getD j none := by
  induction l generalizing i j with
  | nil => simp
  | cons e r ih =>
    cases i with
    | zero =>
      cases j with
      | zero => exact absurd rfl h
      | succ m => simp
    | succ n =>
      cases j with
      | zero => simp
      | succ m =>
        simp only [List.set_cons_succ, List.getD_cons_succ]
        exact ih n m (fun hnm => h (by omega))

theorem getD_none_of_le (l : List (Option Nat)) (i : Nat) (h : l.length ≤ i) :
    l.getD i none = none :=
  List.getD_eq_default l none h

theorem cnt_set (l : List (Option Nat)) (i : Nat) (a : Option Nat) (k : Nat)
    (h : i < l.length) :
    cnt k (l.set i a) + (if l.getD i none = some k then 1 else 0)
      = cnt k l + (if a = some k then 1 else 0) := by
  induction l generalizing i with
  | nil => simp at h
  | cons e r ih =>
    cases i with
    | zero => simp [cnt]; omega
    | succ n =>
      simp only [List.set_cons_succ, List.getD_cons_succ, cnt]
      have := ih n (by simpa using h)
      omega

theorem cnt_pos_of_getD (l : List (Option Nat)) (i k : Nat)
    (h : l.getD i none = some k) : 1 ≤ cnt k l := by
  induction l generalizing i with
  | nil => simp [List.getD] at h
  | cons e r ih =>
    cases i with
    | zero => simp at h; simp [cnt, h]
    | succ n =>
      simp only [List.getD_cons_succ] at h
      have := ih n h
      simp [cnt]; omega

theorem exists_getD_of_cnt_pos (l : List (Option Nat)) (k : Nat)
    (h : 1 ≤ cnt k l) : ∃ i, i < l.length ∧ l.getD i none = some k := by
  induction l with
  | nil => simp [cnt] at h
  | cons e r ih =>
    by_cases he : e = some k
    · exact ⟨0, by simp, by simp [he]⟩
    · have : 1 ≤ cnt k r := by simp [cnt, he] at h; omega
      obtain ⟨i, hi, hgd⟩ := ih this
      exact ⟨i + 1, by simp; omega, by simpa using hgd⟩

theorem cnt_replicate (k n : Nat) : cnt k (List.replicate n none) = 0 := by
  induction n with
  | zero => rfl
  | succ m ih => simp [List.replicate, cnt, ih]

theorem getD_replicate (n i : Nat) :
    (List.replicate n (none : Option Nat)).getD i none = none := by
  induction n generalizing i with
  | zero => simp [List.replicate]
  | succ m ih =>
    cases i with
    | zero => simp [List.replicate]
    | succ j => simpa [List.replicate] using ih j

theorem cnt_eq_zero_of_getD_none (l : List (Option Nat)) (k : Nat)
    (h : ∀ i, l.getD i none = none) : cnt k l = 0 := by
  induction l with
  | nil => rfl
  | cons e r ih =>
    have h0 := h 0
    simp at h0
    have : ∀ i, r.getD i none = none := fun i => by simpa using h (i + 1)
    simp [cnt, h0, ih this]

theorem occCount_set (l : List (Option Nat)) (i : Nat) (a : Option Nat)
    (h : i < l.length) :
    occCount (l.set i a) + (if (l.getD i none).isSome then 1 else 0)
      = occCount l + (if a.isSome then 1 else 0) := by
  induction l generalizing i with
  | nil => simp at h
  | cons e r ih =>
    cases i with
    | zero => simp [occCount]; omega
    | succ n =>
      simp only [List.set_cons_succ, List.getD_cons_succ, occCount]
      have := ih n (by simpa using h)
      omega

theorem occCount_le_length (l : List (Option Nat)) : occCount l ≤ l.length := by
  induction l with
  | nil => simp [occCount]
  | cons e r ih => simp [occCount]; split <;> omega

theorem cnt_le_occCount (k : Nat) (l : List (Option Nat)) :
    cnt k l ≤ occCount l := by
  induction l with
  | nil => simp [cnt, occCount]
  | cons e r ih =>
    simp only [cnt, occCount]
    have : (if e = some k then 1 else 0) ≤ (if e.isSome then 1 else 0) := by
      cases e
      · simp
      · simp only [Option.isSome_some, if_true]
        split <;> omega
    omega

theorem occCount_replicate (n : Nat) :
    occCount (List.replicate n (none : Option Nat)) = 0 := by
  induction n with
  | zero => rfl
  | succ m ih => simp [List.replicate, occCount, ih]

theorem count_slotKeys (t : List (Option Nat)) (k : Nat) :
    (slotKeys t).count k = cnt k t := by
  induction t with
  | nil => rfl
  | cons e r ih =>
    cases e with
    | none => simpa [slotKeys, List.filterMap_cons, cnt] using ih
    | some a =>
      simp only [slotKeys, List.filterMap_cons, id, cnt] at *
      rw [List.count_cons, ih]
      by_cases hak : a = k <;> simp [hak] <;> omega

theorem nodupKeys_iff (t0 t1 : List (Option Nat)) :
    (slotKeys t0 ++ slotKeys t1).Nodup ↔ ∀ k, cnt k t0 + cnt k t1 ≤ 1 := by
  rw [List.nodup_iff_count_le_one]
  constructor
  · intro h k
    have := h k
    rwa [List.count_append, count_slotKeys, count_slotKeys] at this
  · intro h k
    rw [List.count_append, count_slotKeys, count_slotKeys]
    exact h k

theorem wellPlacedB_iff (slot : Nat → Nat) (t : List (Option Nat)) :
    wellPlacedB slot t = true ↔ wellPlacedP slot t := by
  unfold wellPlacedB wellPlacedP
  rw [List.all_eq_true]
  constructor
  · intro h i k hik
    have hi : i < t.length := by
      by_contra hge
      push_neg at hge
      rw [getD_none_of_le t i hge] at hik
      cases hik
    have := h i (List.mem_range.mpr hi)
    rw [hik] at this
    simp at this
    omega
  · intro h i hi
    cases hgd : t.getD i none with
    | none => simp [hgd]
    | some k =>
      have := h i k hgd
      simp [hgd, this]

theorem wf_parts (hf : Nat → Nat) (s : HashSet) (h : WF hf s) :
    Inv hf s ∧ s.capacity ≤ 2 ^ 60 ∧
      s.current_size = occCount s.t0 + occCount s.t1 := by
  obtain ⟨hpos, hb, hl0, hl1, hw0, hw1, hnd, hsz⟩ := h
  exact ⟨⟨hpos, ⟨hl0, hl1, (wellPlacedB_iff _ s.t0).mp hw0,
    (wellPlacedB_iff _ s.t1).mp hw1,
    (nodupKeys_iff s.t0 s.t1).mp hnd⟩⟩, hb, hsz⟩

theorem h1_lt (hf : Nat → Nat) (x cap : Nat) (h : 0 < cap) : h1 hf x cap < cap := by
  unfold h1
  rw [if_neg (by omega)]
  exact Nat.mod_lt _ h

theorem h2_lt (hf : Nat → Nat) (x cap : Nat) (h : 0 < cap) : h2 hf x cap < cap := by
  unfold h2
  rw [if_neg (by omega)]
  exact Nat.mod_lt _ h


/-! ### `contains_unsafe` versus table membership, under the invariant -/

theorem contains_aux_of_cnt (hf : Nat → Nat) (cap : Nat) (t0 t1 : List (Option Nat))
    (x : Nat) (hcap : 0 < cap) (hc : ChainInv hf cap t0 t1)
    (hx : 1 ≤ cnt x t0 + cnt x t1) :
    contains_aux hf x cap t0 t1 = true := by
  unfold contains_aux
  rw [if_neg (show ¬cap = 0 by omega)]
  rcases Nat.lt_or_ge (cnt x t0) 1 with h0 | h0
  · have h1' : 1 ≤ cnt x t1 := by omega
    obtain ⟨i, hi, hgd⟩ := exists_getD_of_cnt_pos t1 x h1'
    have hpl := hc.wp1 i x hgd
    subst hpl
    apply Bool.or_eq_true_iff.mpr
    right
    simp only [Bool.and_eq_true, decide_eq_true_eq, beq_iff_eq]
    exact ⟨⟨h2_lt hf x cap hcap, hi⟩, hgd⟩
  · obtain ⟨i, hi, hgd⟩ := exists_getD_of_cnt_pos t0 x h0
    have hpl := hc.wp0 i x hgd
    subst hpl
    apply Bool.or_eq_true_iff.mpr
    left
    simp only [Bool.and_eq_true, decide_eq_true_eq, beq_iff_eq]
    exact ⟨⟨h1_lt hf x cap hcap, hi⟩, hgd⟩

theorem cnt_zero_of_not_contains (hf : Nat → Nat) (cap : Nat)
    (t0 t1 : List (Option Nat)) (x : Nat) (hcap : 0 < cap)
    (hc : ChainInv hf cap t0 t1)
    (hfalse : contains_aux hf x cap t0 t1 = false) :
    cnt x t0 + cnt x t1 = 0 := by
  by_contra h
  rw [contains_aux_of_cnt hf cap t0 t1 x hcap hc (by omega)] at hfalse
  cases hfalse

/-! ### The cuckoo displacement chain preserves the invariant -/

theorem kickLoop_spec (hf : Nat → Nat) (cap : Nat) (hcap : 0 < cap) :
    ∀ (fuel cur tidx : Nat) (t0 t1 : List (Option Nat)),
      ChainInv hf cap t0 t1 →
      cnt cur t0 + cnt cur t1 = 0 →
      tidx = 0 ∨ tidx = 1 →
      (match kickLoop hf cap fuel cur tidx t0 t1 with
       | .placed a b => ChainInv hf cap a b ∧
           (∀ k, cnt k a + cnt k b
               = cnt k t0 + cnt k t1 + (if k = cur then 1 else 0)) ∧
           occCount a + occCount b = occCount t0 + occCount t1 + 1
       | .noslot cur' a b => ChainInv hf cap a b ∧
           cnt cur' a + cnt cur' b = 0 ∧
           (∀ k, cnt k a + cnt k b + (if k = cur' then 1 else 0)
               = cnt k t0 + cnt k t1 + (if k = cur then 1 else 0)) ∧
           occCount a + occCount b = occCount t0 + occCount t1
       | .oob _ _ => False) := by
  intro fuel
  induction fuel with
  | zero =>
    intro cur tidx t0 t1 hInv hcur _
    exact ⟨hInv, hcur, fun k => rfl, rfl⟩
  | succ n ih =>
    intro cur tidx t0 t1 hInv hcur htidx
    rcases htidx with rfl | rfl
    · -- current table is table 0, slot h1
      have hpos : h1 hf cur cap < cap := h1_lt hf cur cap hcap
      have hlt : h1 hf cur cap < t0.length := by rw [hInv.len0]; exact hpos
      have hset := fun k => cnt_set t0 (h1 hf cur cap) (some cur) k hlt
      have hocc := occCount_set t0 (h1 hf cur cap) (some cur) hlt
      rcases hgd : t0.getD (h1 hf cur cap) none with _ | victim
      · have hstep : kickLoop hf cap (n + 1) cur 0 t0 t1
            = .placed (t0.set (h1 hf cur cap) (some cur)) t1 := by
          simp only [kickLoop]
          rw [if_neg (show ¬(cap ≤ h1 hf cur cap ∨ t0.length ≤ h1 hf cur cap) by omega), hgd]
        rw [hstep]
        simp only [hgd] at hset
        rw [hgd] at hocc
        simp at hocc
        simp only [Option.some.injEq] at hset
        refine ⟨⟨?_, hInv.len1, ?_, hInv.wp1, ?_⟩, ?_, by omega⟩
        · rw [List.length_set]; exact hInv.len0
        · intro i k hik
          by_cases hip : i = h1 hf cur cap
          · subst hip
            rw [getD_set_self t0 _ _ hlt] at hik
            cases hik
            rfl
          · rw [getD_set_ne t0 _ i _ (Ne.symm hip)] at hik
            exact hInv.wp0 i k hik
        · intro k
          have h2k := hInv.nodup k
          have h1k := hset k
          rcases eq_or_ne k cur with rfl | hkc
          · simp at h1k
            omega
          · simp [Ne.symm hkc] at h1k
            omega
        · intro k
          have h1k := hset k
          rcases eq_or_ne k cur with rfl | hkc
          · simp at h1k ⊢
            omega
          · simp [hkc, Ne.symm hkc] at h1k ⊢
            omega
      · have hstep : kickLoop hf cap (n + 1) cur 0 t0 t1
            = kickLoop hf cap n victim 1 (t0.set (h1 hf cur cap) (some cur)) t1 := by
          simp only [kickLoop]
          rw [if_neg (show ¬(cap ≤ h1 hf cur cap ∨ t0.length ≤ h1 hf cur cap) by omega), hgd]
        rw [hstep]
        simp only [hgd] at hset
        rw [hgd] at hocc
        simp only [Option.isSome_some, if_pos] at hocc
        simp only [Option.some.injEq] at hset
        have hvic0 : 1 ≤ cnt victim t0 := cnt_pos_of_getD t0 _ victim hgd
        have hnd := hInv.nodup victim
        have hne : victim ≠ cur := by
          intro h
          rw [h] at hvic0
          omega
        have hinv' : ChainInv hf cap (t0.set (h1 hf cur cap) (some cur)) t1 := by
          refine ⟨?_, hInv.len1, ?_, hInv.wp1, ?_⟩
          · rw [List.length_set]; exact hInv.len0
          · intro i k hik
            by_cases hip : i = h1 hf cur cap
            · subst hip
              rw [getD_set_self t0 _ _ hlt] at hik
              cases hik
              rfl
            · rw [getD_set_ne t0 _ i _ (Ne.symm hip)] at hik
              exact hInv.wp0 i k hik
          · intro k
            have h2k := hInv.nodup k
            have h1k := hset k
            rcases eq_or_ne k cur with rfl | hkc
            · simp [hne] at h1k
              omega
            · rcases eq_or_ne k victim with rfl | hkv
              · simp [Ne.symm hkc] at h1k
                omega
              · simp [Ne.symm hkc, Ne.symm hkv] at h1k
                omega
        have hfresh : cnt victim (t0.set (h1 hf cur cap) (some cur)) + cnt victim t1 = 0 := by
          have h1k := hset victim
          simp [Ne.symm hne] at h1k
          omega
        have H := ih victim 1 (t0.set (h1 hf cur cap) (some cur)) t1 hinv' hfresh (Or.inr rfl)
        cases hres : kickLoop hf cap n victim 1 (t0.set (h1 hf cur cap) (some cur)) t1 with
        | placed a b =>
          rw [hres] at H
          obtain ⟨hI, hC, hO⟩ := H
          refine ⟨hI, ?_, by omega⟩
          intro k
          have h1k := hC k
          have h2k := hset k
          rw [h1k]
          rcases eq_or_ne k cur with rfl | hkc
          · simp [Ne.symm hne, hne] at h2k ⊢
            omega
          · rcases eq_or_ne k victim with rfl | hkv
            · simp [hkc, Ne.symm hkc] at h2k ⊢
              omega
            · simp [hkc, hkv, Ne.symm hkc, Ne.symm hkv] at h2k ⊢
              omega
        | noslot cur' a b =>
          rw [hres] at H
          obtain ⟨hI, hF, hC, hO⟩ := H
          refine ⟨hI, hF, ?_, by omega⟩
          intro k
          have h1k := hC k
          have h2k := hset k
          rw [h1k]
          rcases eq_or_ne k cur with rfl | hkc
          · simp [Ne.symm hne, hne] at h2k ⊢
            omega
          · rcases eq_or_ne k victim with rfl | hkv
            · simp [hkc, Ne.symm hkc] at h2k ⊢
              omega
            · simp [hkc, hkv, Ne.symm hkc, Ne.symm hkv] at h2k ⊢
              omega
        | oob a b =>
          rw [hres] at H
          exact H
    · -- current table is table 1, slot h2
      have hpos : h2 hf cur cap < cap := h2_lt hf cur cap hcap
      have hlt : h2 hf cur cap < t1.length := by rw [hInv.len1]; exact hpos
      have hset := fun k => cnt_set t1 (h2 hf cur cap) (some cur) k hlt
      have hocc := occCount_set t1 (h2 hf cur cap) (some cur) hlt
      rcases hgd : t1.getD (h2 hf cur cap) none with _ | victim
      · have hstep : kickLoop hf cap (n + 1) cur 1 t0 t1
            = .placed t0 (t1.set (h2 hf cur cap) (some cur)) := by
          simp only [kickLoop]
          rw [if_neg (show ¬(cap ≤ h2 hf cur cap ∨ t1.length ≤ h2 hf cur cap) by omega), hgd]
        rw [hstep]
        simp only [hgd] at hset
        rw [hgd] at hocc
        simp at hocc
        simp only [Option.some.injEq] at hset
        refine ⟨⟨hInv.len0, ?_, hInv.wp0, ?_, ?_⟩, ?_, by omega⟩
        · rw [List.length_set]; exact hInv.len1
        · intro i k hik
          by_cases hip : i = h2 hf cur cap
          · subst hip
            rw [getD_set_self t1 _ _ hlt] at hik
            cases hik
            rfl
          · rw [getD_set_ne t1 _ i _ (Ne.symm hip)] at hik
            exact hInv.wp1 i k hik
        · intro k
          have h2k := hInv.nodup k
          have h1k := hset k
          rcases eq_or_ne k cur with rfl | hkc
          · simp at h1k
            omega
          · simp [Ne.symm hkc] at h1k
            omega
        · intro k
          have h1k := hset k
          rcases eq_or_ne k cur with rfl | hkc
          · simp at h1k ⊢
            omega
          · simp [hkc, Ne.symm hkc] at h1k ⊢
            omega
      · have hstep : kickLoop hf cap (n + 1) cur 1 t0 t1
            = kickLoop hf cap n victim 0 t0 (t1.set (h2 hf cur cap) (some cur)) := by
          simp only [kickLoop]
          rw [if_neg (show ¬(cap ≤ h2 hf cur cap ∨ t1.length ≤ h2 hf cur cap) by omega), hgd]
        rw [hstep]
        simp only [hgd] at hset
        rw [hgd] at hocc
        simp only [Option.isSome_some, if_pos] at hocc
        simp only [Option.some.injEq] at hset
        have hvic0 : 1 ≤ cnt victim t1 := cnt_pos_of_getD t1 _ victim hgd
        have hnd := hInv.nodup victim
        have hne : victim ≠ cur := by
          intro h
          rw [h] at hvic0
          omega
        have hinv' : ChainInv hf cap t0 (t1.set (h2 hf cur cap) (some cur)) := by
          refine ⟨hInv.len0, ?_, hInv.wp0, ?_, ?_⟩
          · rw [List.length_set]; exact hInv.len1
          · intro i k hik
            by_cases hip : i = h2 hf cur cap
            · subst hip
              rw [getD_set_self t1 _ _ hlt] at hik
              cases hik
              rfl
            · rw [getD_set_ne t1 _ i _ (Ne.symm hip)] at hik
              exact hInv.wp1 i k hik
          · intro k
            have h2k := hInv.nodup k
            have h1k := hset k
            rcases eq_or_ne k cur with rfl | hkc
            · simp [hne] at h1k
              omega
            · rcases eq_or_ne k victim with rfl | hkv
              · simp [Ne.symm hkc] at h1k
                omega
              · simp [Ne.symm hkc, Ne.symm hkv] at h1k
                omega
        have hfresh : cnt victim t0 + cnt victim (t1.set (h2 hf cur cap) (some cur)) = 0 := by
          have h1k := hset victim
          simp [Ne.symm hne] at h1k
          omega
        have H := ih victim 0 t0 (t1.set (h2 hf cur cap) (some cur)) hinv' hfresh (Or.inl rfl)
        cases hres : kickLoop hf cap n victim 0 t0 (t1.set (h2 hf cur cap) (some cur)) with
        | placed a b =>
          rw [hres] at H
          obtain ⟨hI, hC, hO⟩ := H
          refine ⟨hI, ?_, by omega⟩
          intro k
          have h1k := hC k
          have h2k := hset k
          rw [h1k]
          rcases eq_or_ne k cur with rfl | hkc
          · simp [Ne.symm hne, hne] at h2k ⊢
            omega
          · rcases eq_or_ne k victim with rfl | hkv
            · simp [hkc, Ne.symm hkc] at h2k ⊢
              omega
            · simp [hkc, hkv, Ne.symm hkc, Ne.symm hkv] at h2k ⊢
              omega
        | noslot cur' a b =>
          rw [hres] at H
          obtain ⟨hI, hF, hC, hO⟩ := H
          refine ⟨hI, hF, ?_, by omega⟩
          intro k
          have h1k := hC k
          have h2k := hset k
          rw [h1k]
          rcases eq_or_ne k cur with rfl | hkc
          · simp [Ne.symm hne, hne] at h2k ⊢
            omega
          · rcases eq_or_ne k victim with rfl | hkv
            · simp [hkc, Ne.symm hkc] at h2k ⊢
              omega
            · simp [hkc, hkv, Ne.symm hkc, Ne.symm hkv] at h2k ⊢
              omega
        | oob a b =>
          rw [hres] at H
          exact H


/-! ### The rehash loop of `resize` -/

theorem cnt_cons_some (k0 k : Nat) (l : List (Option Nat)) :
    cnt k (some k0 :: l) = (if k0 = k then 1 else 0) + cnt k l := by
  simp [cnt]

theorem cnt_cons_none (k : Nat) (l : List (Option Nat)) :
    cnt k (none :: l) = cnt k l := by
  simp [cnt]

theorem occCount_cons_some (e : Nat) (l : List (Option Nat)) :
    occCount (some e :: l) = 1 + occCount l := rfl

theorem occCount_cons_none (l : List (Option Nat)) :
    occCount (none :: l) = occCount l := by
  simp [occCount]

theorem rehashPass_spec (hf : Nat → Nat) (cap : Nat) (hcap : 0 < cap) :
    ∀ (old : List (Option Nat)) (bound : Nat) (acc : RehashAcc),
      ChainInv hf cap acc.nt0 acc.nt1 →
      (∀ k, 1 ≤ cnt k (old.take bound) → cnt k acc.nt0 + cnt k acc.nt1 = 0) →
      (∀ k, cnt k (old.take bound) ≤ 1) →
      ChainInv hf cap (rehashPass hf cap old bound acc).2.nt0
          (rehashPass hf cap old bound acc).2.nt1 ∧
      (rehashPass hf cap old bound acc).2.found
          = acc.found + occCount (old.take bound) ∧
      acc.fails ≤ (rehashPass hf cap old bound acc).2.fails ∧
      (∀ k, cnt k (rehashPass hf cap old bound acc).2.nt0
            + cnt k (rehashPass hf cap old bound acc).2.nt1
          ≤ cnt k acc.nt0 + cnt k acc.nt1 + cnt k (old.take bound)) ∧
      ((rehashPass hf cap old bound acc).2.fails = acc.fails →
        (∀ k, cnt k (rehashPass hf cap old bound acc).2.nt0
              + cnt k (rehashPass hf cap old bound acc).2.nt1
            = cnt k acc.nt0 + cnt k acc.nt1 + cnt k (old.take bound)) ∧
        occCount (rehashPass hf cap old bound acc).2.nt0
            + occCount (rehashPass hf cap old bound acc).2.nt1
          = occCount acc.nt0 + occCount acc.nt1 + occCount (old.take bound)) ∧
      (rehashPass hf cap old bound acc).1.length = old.length ∧
      (∀ i, (rehashPass hf cap old bound acc).1.getD i none
          = if i < bound then none else old.getD i none) := by
  intro old
  induction old with
  | nil =>
    intro bound acc hInv hfresh hdup
    have hstep : rehashPass hf cap [] bound acc = ([], acc) := by
      simp only [rehashPass]
    rw [hstep]
    simp only [List.take_nil]
    refine ⟨hInv, by simp [occCount], by simp, fun k => by simp [cnt],
      fun _ => ⟨fun k => by simp [cnt], by simp [occCount]⟩, by simp, fun i => by
        rw [getD_none_of_le [] i (by simp)]
        cases Nat.lt_or_ge i bound with
        | inl h => rw [if_pos h]
        | inr h => rw [if_neg (by omega)]⟩
  | cons e rest ih =>
    intro bound acc hInv hfresh hdup
    cases bound with
    | zero =>
      exact ⟨hInv, rfl, Nat.le_refl _, fun k => Nat.le_refl _,
        fun _ => ⟨fun k => rfl, rfl⟩, rfl,
        fun i => (if_neg (by omega)).symm⟩
    | succ bound =>
      cases e with
      | none =>
        have hfresh' : ∀ k, 1 ≤ cnt k (rest.take bound) →
            cnt k acc.nt0 + cnt k acc.nt1 = 0 := by
          intro k hk
          apply hfresh
          rw [List.take_succ_cons, cnt_cons_none]
          omega
        have hdup' : ∀ k, cnt k (rest.take bound) ≤ 1 := by
          intro k
          have := hdup k
          rwa [List.take_succ_cons, cnt_cons_none] at this
        have H := ih bound acc hInv hfresh' hdup'
        obtain ⟨H1, H2, H3, H4, H5, H6, H7⟩ := H
        have hstep : rehashPass hf cap (none :: rest) (bound + 1) acc
            = (none :: (rehashPass hf cap rest bound acc).1,
               (rehashPass hf cap rest bound acc).2) := by
          simp only [rehashPass]
        rw [hstep]
        refine ⟨H1, ?_, H3, ?_, ?_, ?_, ?_⟩
        · show (rehashPass hf cap rest bound acc).2.found
              = acc.found + occCount ((none :: rest).take (bound + 1))
          rw [List.take_succ_cons, occCount_cons_none]
          exact H2
        · intro k
          show cnt k (rehashPass hf cap rest bound acc).2.nt0
                + cnt k (rehashPass hf cap rest bound acc).2.nt1
              ≤ cnt k acc.nt0 + cnt k acc.nt1 + cnt k ((none :: rest).take (bound + 1))
          rw [List.take_succ_cons, cnt_cons_none]
          exact H4 k
        · intro hfl
          obtain ⟨Ha, Hb⟩ := H5 hfl
          constructor
          · intro k
            show cnt k (rehashPass hf cap rest bound acc).2.nt0
                  + cnt k (rehashPass hf cap rest bound acc).2.nt1
                = cnt k acc.nt0 + cnt k acc.nt1 + cnt k ((none :: rest).take (bound + 1))
            rw [List.take_succ_cons, cnt_cons_none]
            exact Ha k
          · show occCount (rehashPass hf cap rest bound acc).2.nt0
                  + occCount (rehashPass hf cap rest bound acc).2.nt1
                = occCount acc.nt0 + occCount acc.nt1 + occCount ((none :: rest).take (bound + 1))
            rw [List.take_succ_cons, occCount_cons_none]
            exact Hb
        · show (none :: (rehashPass hf cap rest bound acc).1).length = (none :: rest).length
          simp [H6]
        · intro i
          cases i with
          | zero => simp
          | succ j =>
            show (none :: (rehashPass hf cap rest bound acc).1).getD (j + 1) none
                = if j + 1 < bound + 1 then none else (none :: rest).getD (j + 1) none
            rw [List.getD_cons_succ, List.getD_cons_succ, H7 j]
            by_cases hj : j < bound
            · rw [if_pos hj, if_pos (by omega)]
            · rw [if_neg hj, if_neg (by omega)]
      | some k0 =>
        have hk0 : 1 ≤ cnt k0 ((some k0 :: rest).take (bound + 1)) := by
          rw [List.take_succ_cons, cnt_cons_some, if_pos rfl]
          omega
        have hfr0 : cnt k0 acc.nt0 + cnt k0 acc.nt1 = 0 := hfresh k0 hk0
        have hks := kickLoop_spec hf cap hcap MAX_KICK_LIMIT k0 0 acc.nt0 acc.nt1
          hInv (by omega) (Or.inl rfl)
        have hcu : add_cuckoo hf k0 acc.nt0 acc.nt1 cap
            = (match kickLoop hf cap MAX_KICK_LIMIT k0 0 acc.nt0 acc.nt1 with
               | .placed a b => (true, a, b)
               | .noslot _ a b => (false, a, b)
               | .oob a b => (false, a, b)) := by
          unfold add_cuckoo
          rw [if_neg (by omega)]
        cases hres : kickLoop hf cap MAX_KICK_LIMIT k0 0 acc.nt0 acc.nt1 with
        | placed a b =>
          rw [hres] at hks hcu
          obtain ⟨hI, hC, hO⟩ := hks
          have hstep : rehashPass hf cap (some k0 :: rest) (bound + 1) acc
              = (none :: (rehashPass hf cap rest bound ⟨a, b, acc.fails, acc.found + 1⟩).1,
                 (rehashPass hf cap rest bound ⟨a, b, acc.fails, acc.found + 1⟩).2) := by
            simp only [rehashPass, hcu]
            rfl
          have hfresh' : ∀ k, 1 ≤ cnt k (rest.take bound) →
              cnt k a + cnt k b = 0 := by
            intro k hk
            have hd := hdup k
            rw [List.take_succ_cons, cnt_cons_some] at hd
            have hkk0 : ¬(k0 = k) := by
              intro h
              rw [if_pos h] at hd
              omega
            have hck := hC k
            have hf0 : cnt k acc.nt0 + cnt k acc.nt1 = 0 := by
              apply hfresh
              rw [List.take_succ_cons, cnt_cons_some, if_neg hkk0]
              omega
            have hck' := hck
            rcases eq_or_ne k k0 with rfl | hkk
            · exact absurd rfl hkk0
            · rw [if_neg hkk] at hck'
              omega
          have hdup' : ∀ k, cnt k (rest.take bound) ≤ 1 := by
            intro k
            have := hdup k
            rw [List.take_succ_cons, cnt_cons_some] at this
            split at this <;> omega
          have H := ih bound ⟨a, b, acc.fails, acc.found + 1⟩ hI hfresh' hdup'
          obtain ⟨H1, H2, H3, H4, H5, H6, H7⟩ := H
          have H2' : (rehashPass hf cap rest bound ⟨a, b, acc.fails, acc.found + 1⟩).2.found
              = acc.found + 1 + occCount (rest.take bound) := H2
          have H3' : acc.fails ≤ (rehashPass hf cap rest bound ⟨a, b, acc.fails, acc.found + 1⟩).2.fails := H3
          have H4' : ∀ k, cnt k (rehashPass hf cap rest bound ⟨a, b, acc.fails, acc.found + 1⟩).2.nt0
                + cnt k (rehashPass hf cap rest bound ⟨a, b, acc.fails, acc.found + 1⟩).2.nt1
              ≤ cnt k a + cnt k b + cnt k (rest.take bound) := H4
          have H6' : (rehashPass hf cap rest bound ⟨a, b, acc.fails, acc.found + 1⟩).1.length
              = rest.length := H6
          have H7' : ∀ i, (rehashPass hf cap rest bound ⟨a, b, acc.fails, acc.found + 1⟩).1.getD i none
              = if i < bound then none else rest.getD i none := H7
          rw [hstep]
          refine ⟨H1, ?_, ?_, ?_, ?_, ?_, ?_⟩
          · show (rehashPass hf cap rest bound ⟨a, b, acc.fails, acc.found + 1⟩).2.found
                = acc.found + occCount ((some k0 :: rest).take (bound + 1))
            rw [List.take_succ_cons, occCount_cons_some, H2']
            omega
          · show acc.fails ≤ (rehashPass hf cap rest bound ⟨a, b, acc.fails, acc.found + 1⟩).2.fails
            omega
          · intro k
            show cnt k (rehashPass hf cap rest bound ⟨a, b, acc.fails, acc.found + 1⟩).2.nt0
                  + cnt k (rehashPass hf cap rest bound ⟨a, b, acc.fails, acc.found + 1⟩).2.nt1
                ≤ cnt k acc.nt0 + cnt k acc.nt1 + cnt k ((some k0 :: rest).take (bound + 1))
            have h4 := H4' k
            have hck := hC k
            rw [List.take_succ_cons, cnt_cons_some]
            rcases eq_or_ne k k0 with rfl | hkk
            · rw [if_pos rfl]
              rw [if_pos rfl] at hck
              omega
            · rw [if_neg (fun h => hkk h.symm)]
              rw [if_neg hkk] at hck
              omega
          · intro hfl
            have hfl' : (rehashPass hf cap rest bound ⟨a, b, acc.fails, acc.found + 1⟩).2.fails
                = acc.fails := hfl
            obtain ⟨Ha, Hb⟩ := H5 hfl'
            have Ha' : ∀ k, cnt k (rehashPass hf cap rest bound ⟨a, b, acc.fails, acc.found + 1⟩).2.nt0
                  + cnt k (rehashPass hf cap rest bound ⟨a, b, acc.fails, acc.found + 1⟩).2.nt1
                = cnt k a + cnt k b + cnt k (rest.take bound) := Ha
            have Hb' : occCount (rehashPass hf cap rest bound ⟨a, b, acc.fails, acc.found + 1⟩).2.nt0
                  + occCount (rehashPass hf cap rest bound ⟨a, b, acc.fails, acc.found + 1⟩).2.nt1
                = occCount a + occCount b + occCount (rest.take bound) := Hb
            constructor
            · intro k
              show cnt k (rehashPass hf cap rest bound ⟨a, b, acc.fails, acc.found + 1⟩).2.nt0
                    + cnt k (rehashPass hf cap rest bound ⟨a, b, acc.fails, acc.found + 1⟩).2.nt1
                  = cnt k acc.nt0 + cnt k acc.nt1 + cnt k ((some k0 :: rest).take (bound + 1))
              have ha := Ha' k
              have hck := hC k
              rw [List.take_succ_cons, cnt_cons_some]
              rcases eq_or_ne k k0 with rfl | hkk
              · rw [if_pos rfl] at hck
                rw [if_pos rfl]
                omega
              · rw [if_neg hkk] at hck
                rw [if_neg (fun h => hkk h.symm)]
                omega
            · show occCount (rehashPass hf cap rest bound ⟨a, b, acc.fails, acc.found + 1⟩).2.nt0
                    + occCount (rehashPass hf cap rest bound ⟨a, b, acc.fails, acc.found + 1⟩).2.nt1
                  = occCount acc.nt0 + occCount acc.nt1 + occCount ((some k0 :: rest).take (bound + 1))
              rw [List.take_succ_cons, occCount_cons_some]
              omega
          · show (none :: (rehashPass hf cap rest bound ⟨a, b, acc.fails, acc.found + 1⟩).1).length
                = (some k0 :: rest).length
            simp [H6']
          · intro i
            cases i with
            | zero => simp
            | succ j =>
              show (none :: (rehashPass hf cap rest bound ⟨a, b, acc.fails, acc.found + 1⟩).1).getD (j + 1) none
                  = if j + 1 < bound + 1 then none else (some k0 :: rest).getD (j + 1) none
              rw [List.getD_cons_succ, List.getD_cons_succ, H7' j]
              by_cases hj : j < bound
              · rw [if_pos hj, if_pos (by omega)]
              · rw [if_neg hj, if_neg (by omega)]
        | noslot cur' a b =>
          rw [hres] at hks hcu
          obtain ⟨hI, hFr, hC, hO⟩ := hks
          have hstep : rehashPass hf cap (some k0 :: rest) (bound + 1) acc
              = (none :: (rehashPass hf cap rest bound ⟨a, b, acc.fails + 1, acc.found + 1⟩).1,
                 (rehashPass hf cap rest bound ⟨a, b, acc.fails + 1, acc.found + 1⟩).2) := by
            simp only [rehashPass, hcu]
            rfl
          have hfresh' : ∀ k, 1 ≤ cnt k (rest.take bound) →
              cnt k a + cnt k b = 0 := by
            intro k hk
            have hd := hdup k
            rw [List.take_succ_cons, cnt_cons_some] at hd
            have hkk0 : ¬(k0 = k) := by
              intro h
              rw [if_pos h] at hd
              omega
            have hck := hC k
            have hf0 : cnt k acc.nt0 + cnt k acc.nt1 = 0 := by
              apply hfresh
              rw [List.take_succ_cons, cnt_cons_some, if_neg hkk0]
              omega
            rcases eq_or_ne k k0 with rfl | hkk
            · exact absurd rfl hkk0
            · rw [if_neg hkk] at hck
              rcases eq_or_ne k cur' with rfl | hkc'
              · rw [if_pos rfl] at hck
                omega
              · rw [if_neg hkc'] at hck
                omega
          have hdup' : ∀ k, cnt k (rest.take bound) ≤ 1 := by
            intro k
            have := hdup k
            rw [List.take_succ_cons, cnt_cons_some] at this
            split at this <;> omega
          have H := ih bound ⟨a, b, acc.fails + 1, acc.found + 1⟩ hI hfresh' hdup'
          obtain ⟨H1, H2, H3, H4, H5, H6, H7⟩ := H
          have H2' : (rehashPass hf cap rest bound ⟨a, b, acc.fails + 1, acc.found + 1⟩).2.found
              = acc.found + 1 + occCount (rest.take bound) := H2
          have H3' : acc.fails + 1 ≤ (rehashPass hf cap rest bound ⟨a, b, acc.fails + 1, acc.found + 1⟩).2.fails := H3
          have H4' : ∀ k, cnt k (rehashPass hf cap rest bound ⟨a, b, acc.fails + 1, acc.found + 1⟩).2.nt0
                + cnt k (rehashPass hf cap rest bound ⟨a, b, acc.fails + 1, acc.found + 1⟩).2.nt1
              ≤ cnt k a + cnt k b + cnt k (rest.take bound) := H4
          have H6' : (rehashPass hf cap rest bound ⟨a, b, acc.fails + 1, acc.found + 1⟩).1.length
              = rest.length := H6
          have H7' : ∀ i, (rehashPass hf cap rest bound ⟨a, b, acc.fails + 1, acc.found + 1⟩).1.getD i none
              = if i < bound then none else rest.getD i none := H7
          rw [hstep]
          refine ⟨H1, ?_, ?_, ?_, ?_, ?_, ?_⟩
          · show (rehashPass hf cap rest bound ⟨a, b, acc.fails + 1, acc.found + 1⟩).2.found
                = acc.found + occCount ((some k0 :: rest).take (bound + 1))
            rw [List.take_succ_cons, occCount_cons_some, H2']
            omega
          · show acc.fails ≤ (rehashPass hf cap rest bound ⟨a, b, acc.fails + 1, acc.found + 1⟩).2.fails
            omega
          · intro k
            show cnt k (rehashPass hf cap rest bound ⟨a, b, acc.fails + 1, acc.found + 1⟩).2.nt0
                  + cnt k (rehashPass hf cap rest bound ⟨a, b, acc.fails + 1, acc.found + 1⟩).2.nt1
                ≤ cnt k acc.nt0 + cnt k acc.nt1 + cnt k ((some k0 :: rest).take (bound + 1))
            have h4 := H4' k
            have hck := hC k
            rw [List.take_succ_cons, cnt_cons_some]
            rcases eq_or_ne k k0 with rfl | hkk
            · rw [if_pos rfl]
              rw [if_pos rfl] at hck
              rcases eq_or_ne k cur' with rfl | hkc'
              · rw [if_pos rfl] at hck
                omega
              · rw [if_neg hkc'] at hck
                omega
            · rw [if_neg (fun h => hkk h.symm)]
              rw [if_neg hkk] at hck
              rcases eq_or_ne k cur' with rfl | hkc'
              · rw [if_pos rfl] at hck
                omega
              · rw [if_neg hkc'] at hck
                omega
          · intro hfl
            exfalso
            have hfl' : (rehashPass hf cap rest bound ⟨a, b, acc.fails + 1, acc.found + 1⟩).2.fails
                = acc.fails := hfl
            omega
          · show (none :: (rehashPass hf cap rest bound ⟨a, b, acc.fails + 1, acc.found + 1⟩).1).length
                = (some k0 :: rest).length
            simp [H6']
          · intro i
            cases i with
            | zero => simp
            | succ j =>
              show (none :: (rehashPass hf cap rest bound ⟨a, b, acc.fails + 1, acc.found + 1⟩).1).getD (j + 1) none
                  = if j + 1 < bound + 1 then none else (some k0 :: rest).getD (j + 1) none
              rw [List.getD_cons_succ, List.getD_cons_succ, H7' j]
              by_cases hj : j < bound
              · rw [if_pos hj, if_pos (by omega)]
              · rw [if_neg hj, if_neg (by omega)]
        | oob a b =>
          rw [hres] at hks
          exact absurd hks (fun h => h)


/-! ### `resize`: abort above the ceiling, all-or-nothing commit, cleared tables on failure -/

theorem chainInv_replicate (hf : Nat → Nat) (cap : Nat) :
    ChainInv hf cap (List.replicate cap none) (List.replicate cap none) := by
  refine ⟨by simp, by simp, ?_, ?_, ?_⟩
  · intro i k h
    rw [getD_replicate] at h
    cases h
  · intro i k h
    rw [getD_replicate] at h
    cases h
  · intro k
    rw [cnt_replicate]
    omega

theorem resize_ceiling (hf : Nat → Nat) (s : HashSet)
    (h : CAP_CEILING < s.capacity) : resize hf s = s := by
  unfold resize
  rw [if_pos h]

theorem resize_spec (hf : Nat → Nat) (s : HashSet) (hInv : Inv hf s) :
    resize hf s = s ∨
    ((resize hf s).capacity = s.capacity ∧
      (resize hf s).current_size = s.current_size ∧ Inv hf (resize hf s)) ∨
    ((resize hf s).capacity = 2 * s.capacity ∧ Inv hf (resize hf s) ∧
      (∀ k, cnt k (resize hf s).t0 + cnt k (resize hf s).t1
          = cnt k s.t0 + cnt k s.t1) ∧
      (resize hf s).current_size = occCount s.t0 + occCount s.t1) := by
  obtain ⟨hpos, hc⟩ := hInv
  by_cases hceil : CAP_CEILING < s.capacity
  · exact Or.inl (resize_ceiling hf s hceil)
  · have hcap2 : 0 < s.capacity * 2 := by omega
    have hre : resize hf s
        = (if (rehashPass hf (s.capacity * 2) s.t1 s.capacity (rehashPass hf (s.capacity * 2) s.t0 s.capacity (⟨List.replicate (s.capacity * 2) none, List.replicate (s.capacity * 2) none, 0, 0⟩ : RehashAcc)).2).2.fails = 0
           then ⟨(rehashPass hf (s.capacity * 2) s.t1 s.capacity (rehashPass hf (s.capacity * 2) s.t0 s.capacity (⟨List.replicate (s.capacity * 2) none, List.replicate (s.capacity * 2) none, 0, 0⟩ : RehashAcc)).2).2.nt0, (rehashPass hf (s.capacity * 2) s.t1 s.capacity (rehashPass hf (s.capacity * 2) s.t0 s.capacity (⟨List.replicate (s.capacity * 2) none, List.replicate (s.capacity * 2) none, 0, 0⟩ : RehashAcc)).2).2.nt1, s.capacity * 2, (rehashPass hf (s.capacity * 2) s.t1 s.capacity (rehashPass hf (s.capacity * 2) s.t0 s.capacity (⟨List.replicate (s.capacity * 2) none, List.replicate (s.capacity * 2) none, 0, 0⟩ : RehashAcc)).2).2.found⟩
           else ⟨(rehashPass hf (s.capacity * 2) s.t0 s.capacity (⟨List.replicate (s.capacity * 2) none, List.replicate (s.capacity * 2) none, 0, 0⟩ : RehashAcc)).1, (rehashPass hf (s.capacity * 2) s.t1 s.capacity (rehashPass hf (s.capacity * 2) s.t0 s.capacity (⟨List.replicate (s.capacity * 2) none, List.replicate (s.capacity * 2) none, 0, 0⟩ : RehashAcc)).2).1, s.capacity, s.current_size⟩) := by
      unfold resize
      rw [if_neg hceil, if_neg (show ¬s.capacity = 0 by omega)]
    have htake0 : s.t0.take s.capacity = s.t0 := by
      rw [← hc.len0]
      exact List.take_length s.t0
    have htake1 : s.t1.take s.capacity = s.t1 := by
      rw [← hc.len1]
      exact List.take_length s.t1
    have HP0 := rehashPass_spec hf (s.capacity * 2) hcap2 s.t0 s.capacity
      (⟨List.replicate (s.capacity * 2) none, List.replicate (s.capacity * 2) none, 0, 0⟩ : RehashAcc)
      (chainInv_replicate hf (s.capacity * 2))
      (fun k _ => by
        show cnt k (List.replicate (s.capacity * 2) none)
            + cnt k (List.replicate (s.capacity * 2) none) = 0
        rw [cnt_replicate])
      (fun k => by
        rw [htake0]
        have := hc.nodup k
        omega)
    obtain ⟨A1, A2, A3, A4, A5, A6, A7⟩ := HP0
    have A2' : (rehashPass hf (s.capacity * 2) s.t0 s.capacity (⟨List.replicate (s.capacity * 2) none, List.replicate (s.capacity * 2) none, 0, 0⟩ : RehashAcc)).2.found = 0 + occCount (s.t0.take s.capacity) := A2
    have A3' : 0 ≤ (rehashPass hf (s.capacity * 2) s.t0 s.capacity (⟨List.replicate (s.capacity * 2) none, List.replicate (s.capacity * 2) none, 0, 0⟩ : RehashAcc)).2.fails := A3
    have A4' : ∀ k, cnt k (rehashPass hf (s.capacity * 2) s.t0 s.capacity (⟨List.replicate (s.capacity * 2) none, List.replicate (s.capacity * 2) none, 0, 0⟩ : RehashAcc)).2.nt0 + cnt k (rehashPass hf (s.capacity * 2) s.t0 s.capacity (⟨List.replicate (s.capacity * 2) none, List.replicate (s.capacity * 2) none, 0, 0⟩ : RehashAcc)).2.nt1
        ≤ cnt k (List.replicate (s.capacity * 2) none)
          + cnt k (List.replicate (s.capacity * 2) none)
          + cnt k (s.t0.take s.capacity) := A4
    have A5' : (rehashPass hf (s.capacity * 2) s.t0 s.capacity (⟨List.replicate (s.capacity * 2) none, List.replicate (s.capacity * 2) none, 0, 0⟩ : RehashAcc)).2.fails = 0 →
        (∀ k, cnt k (rehashPass hf (s.capacity * 2) s.t0 s.capacity (⟨List.replicate (s.capacity * 2) none, List.replicate (s.capacity * 2) none, 0, 0⟩ : RehashAcc)).2.nt0 + cnt k (rehashPass hf (s.capacity * 2) s.t0 s.capacity (⟨List.replicate (s.capacity * 2) none, List.replicate (s.capacity * 2) none, 0, 0⟩ : RehashAcc)).2.nt1
            = cnt k (List.replicate (s.capacity * 2) none)
              + cnt k (List.replicate (s.capacity * 2) none)
              + cnt k (s.t0.take s.capacity)) ∧
        occCount (rehashPass hf (s.capacity * 2) s.t0 s.capacity (⟨List.replicate (s.capacity * 2) none, List.replicate (s.capacity * 2) none, 0, 0⟩ : RehashAcc)).2.nt0 + occCount (rehashPass hf (s.capacity * 2) s.t0 s.capacity (⟨List.replicate (s.capacity * 2) none, List.replicate (s.capacity * 2) none, 0, 0⟩ : RehashAcc)).2.nt1
            = occCount (List.replicate (s.capacity * 2) none)
              + occCount (List.replicate (s.capacity * 2) none)
              + occCount (s.t0.take s.capacity) := A5
    have HP1 := rehashPass_spec hf (s.capacity * 2) hcap2 s.t1 s.capacity
      (rehashPass hf (s.capacity * 2) s.t0 s.capacity (⟨List.replicate (s.capacity * 2) none, List.replicate (s.capacity * 2) none, 0, 0⟩ : RehashAcc)).2 A1
      (fun k hk => by
        rw [htake1] at hk
        have h4 := A4' k
        rw [htake0, cnt_replicate] at h4
        have hnd := hc.nodup k
        omega)
      (fun k => by
        rw [htake1]
        have := hc.nodup k
        omega)
    obtain ⟨B1, B2, B3, B4, B5, B6, B7⟩ := HP1
    rw [hre]
    by_cases hfail : (rehashPass hf (s.capacity * 2) s.t1 s.capacity (rehashPass hf (s.capacity * 2) s.t0 s.capacity (⟨List.replicate (s.capacity * 2) none, List.replicate (s.capacity * 2) none, 0, 0⟩ : RehashAcc)).2).2.fails = 0
    · rw [if_pos hfail]
      right
      right
      have hp0f : (rehashPass hf (s.capacity * 2) s.t0 s.capacity (⟨List.replicate (s.capacity * 2) none, List.replicate (s.capacity * 2) none, 0, 0⟩ : RehashAcc)).2.fails = 0 := by omega
      obtain ⟨Ac, Ao⟩ := A5' hp0f
      obtain ⟨Bc, Bo⟩ := B5 (by omega)
      refine ⟨?_, ⟨?_, B1⟩, ?_, ?_⟩
      · show s.capacity * 2 = 2 * s.capacity
        omega
      · show 0 < s.capacity * 2
        omega
      · intro k
        show cnt k (rehashPass hf (s.capacity * 2) s.t1 s.capacity (rehashPass hf (s.capacity * 2) s.t0 s.capacity (⟨List.replicate (s.capacity * 2) none, List.replicate (s.capacity * 2) none, 0, 0⟩ : RehashAcc)).2).2.nt0 + cnt k (rehashPass hf (s.capacity * 2) s.t1 s.capacity (rehashPass hf (s.capacity * 2) s.t0 s.capacity (⟨List.replicate (s.capacity * 2) none, List.replicate (s.capacity * 2) none, 0, 0⟩ : RehashAcc)).2).2.nt1 = cnt k s.t0 + cnt k s.t1
        have hbc := Bc k
        have hac := Ac k
        rw [htake0, cnt_replicate] at hac
        rw [htake1] at hbc
        omega
      · show (rehashPass hf (s.capacity * 2) s.t1 s.capacity (rehashPass hf (s.capacity * 2) s.t0 s.capacity (⟨List.replicate (s.capacity * 2) none, List.replicate (s.capacity * 2) none, 0, 0⟩ : RehashAcc)).2).2.found = occCount s.t0 + occCount s.t1
        rw [htake0] at A2'
        rw [htake1] at B2
        omega
    · rw [if_neg hfail]
      right
      left
      have hnone0 : ∀ i, (rehashPass hf (s.capacity * 2) s.t0 s.capacity (⟨List.replicate (s.capacity * 2) none, List.replicate (s.capacity * 2) none, 0, 0⟩ : RehashAcc)).1.getD i none = none := by
        intro i
        rw [A7 i]
        by_cases hi : i < s.capacity
        · rw [if_pos hi]
        · rw [if_neg hi]
          exact getD_none_of_le s.t0 i (by rw [hc.len0]; omega)
      have hnone1 : ∀ i, (rehashPass hf (s.capacity * 2) s.t1 s.capacity (rehashPass hf (s.capacity * 2) s.t0 s.capacity (⟨List.replicate (s.capacity * 2) none, List.replicate (s.capacity * 2) none, 0, 0⟩ : RehashAcc)).2).1.getD i none = none := by
        intro i
        rw [B7 i]
        by_cases hi : i < s.capacity
        · rw [if_pos hi]
        · rw [if_neg hi]
          exact getD_none_of_le s.t1 i (by rw [hc.len1]; omega)
      refine ⟨rfl, rfl, ?_, ?_⟩
      · show 0 < s.capacity
        exact hpos
      · refine ⟨?_, ?_, ?_, ?_, ?_⟩
        · show (rehashPass hf (s.capacity * 2) s.t0 s.capacity (⟨List.replicate (s.capacity * 2) none, List.replicate (s.capacity * 2) none, 0, 0⟩ : RehashAcc)).1.length = s.capacity
          rw [A6, hc.len0]
        · show (rehashPass hf (s.capacity * 2) s.t1 s.capacity (rehashPass hf (s.capacity * 2) s.t0 s.capacity (⟨List.replicate (s.capacity * 2) none, List.replicate (s.capacity * 2) none, 0, 0⟩ : RehashAcc)).2).1.length = s.capacity
          rw [B6, hc.len1]
        · intro i k h
          rw [hnone0 i] at h
          cases h
        · intro i k h
          rw [hnone1 i] at h
          cases h
        · intro k
          rw [cnt_eq_zero_of_getD_none _ k hnone0, cnt_eq_zero_of_getD_none _ k hnone1]
          omega


/-! ### Invariant preservation by the public operations -/

theorem resize_inv (hf : Nat → Nat) (s : HashSet) (h : Inv hf s) :
    Inv hf (resize hf s) := by
  rcases resize_spec hf s h with he | ⟨_, _, hI⟩ | ⟨_, hI, _, _⟩
  · rw [he]
    exact h
  · exact hI
  · exact hI

theorem addLoop_inv (hf : Nat → Nat) :
    ∀ (fuel x : Nat) (s : HashSet), Inv hf s → Inv hf (addLoop hf fuel x s).2.1 := by
  intro fuel
  induction fuel with
  | zero =>
    intro x s h
    exact h
  | succ n ih =>
    intro x s h
    obtain ⟨hpos, hc⟩ := h
    have h0 : ¬s.capacity = 0 := by omega
    by_cases hct : contains_aux hf x s.capacity s.t0 s.t1 = true
    · have hstep : addLoop hf (n + 1) x s = (false, s, 0) := by
        simp only [addLoop]
        rw [if_neg h0, if_pos hct]
      rw [hstep]
      exact ⟨hpos, hc⟩
    · have hcf : contains_aux hf x s.capacity s.t0 s.t1 = false := by
        simpa using hct
      have hfr : cnt x s.t0 + cnt x s.t1 = 0 :=
        cnt_zero_of_not_contains hf s.capacity s.t0 s.t1 x hpos hc hcf
      have hks := kickLoop_spec hf s.capacity hpos MAX_KICK_LIMIT x 0 s.t0 s.t1
        hc hfr (Or.inl rfl)
      cases hres : kickLoop hf s.capacity MAX_KICK_LIMIT x 0 s.t0 s.t1 with
      | placed a b =>
        rw [hres] at hks
        obtain ⟨hI, _, _⟩ := hks
        have hstep : addLoop hf (n + 1) x s
            = (true, ⟨a, b, s.capacity, incSize s.current_size⟩, 0) := by
          simp only [addLoop]
          rw [if_neg h0, if_neg hct, hres]
        rw [hstep]
        exact ⟨hpos, hI⟩
      | noslot cur a b =>
        rw [hres] at hks
        obtain ⟨hI, hFr, _, _⟩ := hks
        by_cases hn : n = 0
        · have hstep : addLoop hf (n + 1) x s
              = (false, ⟨a, b, s.capacity, s.current_size⟩, 0) := by
            simp only [addLoop]
            rw [if_neg h0, if_neg hct, hres]
            show (if n = 0 then (false, (⟨a, b, s.capacity, s.current_size⟩ : HashSet), 0)
                  else ((addLoop hf n cur (resize hf ⟨a, b, s.capacity, s.current_size⟩)).1,
                        (addLoop hf n cur (resize hf ⟨a, b, s.capacity, s.current_size⟩)).2.1,
                        (addLoop hf n cur (resize hf ⟨a, b, s.capacity, s.current_size⟩)).2.2 + 1))
                = (false, ⟨a, b, s.capacity, s.current_size⟩, 0)
            rw [if_pos hn]
          rw [hstep]
          exact ⟨hpos, hI⟩
        · have hstep : addLoop hf (n + 1) x s
              = ((addLoop hf n cur (resize hf ⟨a, b, s.capacity, s.current_size⟩)).1,
                 (addLoop hf n cur (resize hf ⟨a, b, s.capacity, s.current_size⟩)).2.1,
                 (addLoop hf n cur (resize hf ⟨a, b, s.capacity, s.current_size⟩)).2.2 + 1) := by
            simp only [addLoop]
            rw [if_neg h0, if_neg hct, hres]
            show (if n = 0 then (false, (⟨a, b, s.capacity, s.current_size⟩ : HashSet), 0)
                  else ((addLoop hf n cur (resize hf ⟨a, b, s.capacity, s.current_size⟩)).1,
                        (addLoop hf n cur (resize hf ⟨a, b, s.capacity, s.current_size⟩)).2.1,
                        (addLoop hf n cur (resize hf ⟨a, b, s.capacity, s.current_size⟩)).2.2 + 1))
                = ((addLoop hf n cur (resize hf ⟨a, b, s.capacity, s.current_size⟩)).1,
                   (addLoop hf n cur (resize hf ⟨a, b, s.capacity, s.current_size⟩)).2.1,
                   (addLoop hf n cur (resize hf ⟨a, b, s.capacity, s.current_size⟩)).2.2 + 1)
            rw [if_neg hn]
          rw [hstep]
          exact ih cur _ (resize_inv hf _ ⟨hpos, hI⟩)
      | oob a b =>
        rw [hres] at hks
        exact absurd hks (fun hfa => hfa)

theorem add_inv (hf : Nat → Nat) (s : HashSet) (x : Nat) (h : Inv hf s) :
    Inv hf (add hf s x).2 :=
  addLoop_inv hf 2 x s h

theorem set_none_chainInv0 (hf : Nat → Nat) (cap : Nat) (t0 t1 : List (Option Nat))
    (pos : Nat) (hlt : pos < t0.length) (hc : ChainInv hf cap t0 t1) :
    ChainInv hf cap (t0.set pos none) t1 := by
  refine ⟨by rw [List.length_set]; exact hc.len0, hc.len1, ?_, hc.wp1, ?_⟩
  · intro i k hik
    by_cases hip : i = pos
    · subst hip
      rw [getD_set_self t0 _ _ hlt] at hik
      cases hik
    · rw [getD_set_ne t0 _ i _ (Ne.symm hip)] at hik
      exact hc.wp0 i k hik
  · intro k
    have h1k := cnt_set t0 pos none k hlt
    have h2k := hc.nodup k
    simp only [reduceCtorEq, if_false] at h1k
    split_ifs at h1k <;> omega

theorem set_none_chainInv1 (hf : Nat → Nat) (cap : Nat) (t0 t1 : List (Option Nat))
    (pos : Nat) (hlt : pos < t1.length) (hc : ChainInv hf cap t0 t1) :
    ChainInv hf cap t0 (t1.set pos none) := by
  refine ⟨hc.len0, by rw [List.length_set]; exact hc.len1, hc.wp0, ?_, ?_⟩
  · intro i k hik
    by_cases hip : i = pos
    · subst hip
      rw [getD_set_self t1 _ _ hlt] at hik
      cases hik
    · rw [getD_set_ne t1 _ i _ (Ne.symm hip)] at hik
      exact hc.wp1 i k hik
  · intro k
    have h1k := cnt_set t1 pos none k hlt
    have h2k := hc.nodup k
    simp only [reduceCtorEq, if_false] at h1k
    split_ifs at h1k <;> omega

theorem remove_inv (hf : Nat → Nat) (s : HashSet) (x : Nat) (h : Inv hf s) :
    Inv hf (remove hf s x).2 := by
  obtain ⟨hpos, hc⟩ := h
  have h0 : ¬s.capacity = 0 := by omega
  by_cases hc1 : h1 hf x s.capacity < s.capacity ∧ h1 hf x s.capacity < s.t0.length ∧
      s.t0.getD (h1 hf x s.capacity) none = some x
  · have hstep : remove hf s x
        = (true, ⟨s.t0.set (h1 hf x s.capacity) none, s.t1, s.capacity,
            decSize s.current_size⟩) := by
      unfold remove
      rw [if_neg h0, if_pos hc1]
    rw [hstep]
    exact ⟨hpos, set_none_chainInv0 hf s.capacity s.t0 s.t1 _ hc1.2.1 hc⟩
  · by_cases hc2 : h2 hf x s.capacity < s.capacity ∧ h2 hf x s.capacity < s.t1.length ∧
        s.t1.getD (h2 hf x s.capacity) none = some x
    · have hstep : remove hf s x
          = (true, ⟨s.t0, s.t1.set (h2 hf x s.capacity) none, s.capacity,
              decSize s.current_size⟩) := by
        unfold remove
        rw [if_neg h0, if_neg hc1, if_pos hc2]
      rw [hstep]
      exact ⟨hpos, set_none_chainInv1 hf s.capacity s.t0 s.t1 _ hc2.2.1 hc⟩
    · have hstep : remove hf s x = (false, s) := by
        unfold remove
        rw [if_neg h0, if_neg hc1, if_neg hc2]
      rw [hstep]
      exact ⟨hpos, hc⟩

theorem create_inv (hf : Nat → Nat) (c : Nat) : Inv hf (create c) := by
  constructor
  · show 0 < (if c = 0 then 16 else c)
    by_cases hc : c = 0
    · rw [if_pos hc]
      omega
    · rw [if_neg hc]
      omega
  · exact chainInv_replicate hf (if c = 0 then 16 else c)

theorem reachable_inv (hf : Nat → Nat) (s : HashSet) (h : Reachable hf s) :
    Inv hf s := by
  induction h with
  | create c => exact create_inv hf c
  | add s x _ ih => exact add_inv hf s x ih
  | remove s x _ ih => exact remove_inv hf s x ih
  | resize s _ ih => exact resize_inv hf s ih


/-! ### Counter arithmetic under well-formedness -/

theorem u64_eq : U64 = 18446744073709551616 := by
  unfold U64
  norm_num

theorem incSize_eq (n : Nat) (h : n + 1 < U64) : incSize n = n + 1 :=
  Nat.mod_eq_of_lt h

theorem decSize_eq (n : Nat) (h0 : 0 < n) (h : n < U64) : decSize n = n - 1 := by
  unfold decSize
  rw [u64_eq] at h ⊢
  omega

theorem wf_size_small (hf : Nat → Nat) (s : HashSet) (hWF : WF hf s) :
    s.current_size + 1 < U64 := by
  obtain ⟨hInv, hcap, hsz⟩ := wf_parts hf s hWF
  have o0 := occCount_le_length s.t0
  have o1 := occCount_le_length s.t1
  have l0 : s.t0.length = s.capacity := hInv.2.len0
  have l1 : s.t1.length = s.capacity := hInv.2.len1
  have hb : (2 : Nat) ^ 60 + 2 ^ 60 + 2 < 18446744073709551616 := by norm_num
  rw [u64_eq]
  omega

/-! ### Claim theorems -/

/-- C4: after every single-threaded sequence of `add`, `remove` and `resize`
operations on a freshly constructed set, every stored key sits at index
`h1(key, capacity)` in table 0 or `h2(key, capacity)` in table 1 under the
current capacity, and no key occupies more than one slot across the two
tables (in particular never both candidate slots). -/
theorem c4_placement_invariant (hf : Nat → Nat) (s : HashSet)
    (h : Reachable hf s) :
    (∀ i k, s.t0.getD i none = some k → i = h1 hf k s.capacity) ∧
    (∀ i k, s.t1.getD i none = some k → i = h2 hf k s.capacity) ∧
    (∀ k, cnt k s.t0 + cnt k s.t1 ≤ 1) := by
  obtain ⟨_, hc⟩ := reachable_inv hf s h
  exact ⟨hc.wp0, hc.wp1, hc.nodup⟩

/-- Witness for C4 at the concrete reachable state `create 2`. -/
theorem c4_placement_invariant_witness :
    (∀ i k, (create 2).t0.getD i none = some k → i = h1 hfId k (create 2).capacity) ∧
    (∀ i k, (create 2).t1.getD i none = some k → i = h2 hfId k (create 2).capacity) ∧
    (∀ k, cnt k (create 2).t0 + cnt k (create 2).t1 ≤ 1) :=
  c4_placement_invariant hfId (create 2) (Reachable.create 2)

/-- C6: for a nonzero capacity the lock-index computation returns an ordered
pair `(lo, hi)` with `lo ≤ hi` whose members are exactly
`h1(key, capacity) % NUM_LOCKS` and `h2(key, capacity) % NUM_LOCKS`; the
single-key operations acquire the `lo` stripe first and skip the second
acquisition when the stripes coincide, and `resize` acquires all
`NUM_LOCKS` stripes in ascending order `0 .. NUM_LOCKS - 1`. -/
theorem c6_lock_discipline (hf : Nat → Nat) (x cap : Nat) (h : cap ≠ 0) :
    (get_lock_indices hf x cap).1 ≤ (get_lock_indices hf x cap).2 ∧
    (get_lock_indices hf x cap
        = (h1 hf x cap % NUM_LOCKS, h2 hf x cap % NUM_LOCKS) ∨
     get_lock_indices hf x cap
        = (h2 hf x cap % NUM_LOCKS, h1 hf x cap % NUM_LOCKS)) ∧
    ((get_lock_indices hf x cap).1 = (get_lock_indices hf x cap).2 →
      opLockSeq hf x cap = [(get_lock_indices hf x cap).1]) ∧
    ((get_lock_indices hf x cap).1 ≠ (get_lock_indices hf x cap).2 →
      opLockSeq hf x cap = [(get_lock_indices hf x cap).1, (get_lock_indices hf x cap).2]) ∧
    List.Chain' (· < ·) (opLockSeq hf x cap) ∧
    resizeLockSeq = List.range NUM_LOCKS ∧
    List.Chain' (· < ·) resizeLockSeq := by
  have hgl : get_lock_indices hf x cap
      = (min (h1 hf x cap % NUM_LOCKS) (h2 hf x cap % NUM_LOCKS),
         max (h1 hf x cap % NUM_LOCKS) (h2 hf x cap % NUM_LOCKS)) := by
    unfold get_lock_indices
    rw [if_neg h]
  have hminmax : (get_lock_indices hf x cap).1 ≤ (get_lock_indices hf x cap).2 := by
    rw [hgl]
    exact min_le_max
  refine ⟨hminmax, ?_, ?_, ?_, ?_, rfl, ?_⟩
  · rw [hgl]
    rcases le_total (h1 hf x cap % NUM_LOCKS) (h2 hf x cap % NUM_LOCKS) with hle | hle
    · left
      rw [min_eq_left hle, max_eq_right hle]
    · right
      rw [min_eq_right hle, max_eq_left hle]
  · intro heq
    unfold opLockSeq
    rw [if_pos heq]
  · intro hne
    unfold opLockSeq
    rw [if_neg hne]
  · unfold opLockSeq
    by_cases heq : (get_lock_indices hf x cap).1 = (get_lock_indices hf x cap).2
    · rw [if_pos heq]
      simp
    · rw [if_neg heq]
      have : (get_lock_indices hf x cap).1 < (get_lock_indices hf x cap).2 := by
        omega
      simp [this]
  · show List.Chain' (· < ·) (List.range NUM_LOCKS)
    have h32 : NUM_LOCKS = 31 + 1 := rfl
    rw [h32, List.chain'_range_succ]
    intro m _
    omega

/-- Witness for C6 at key 5 and capacity 16. -/
theorem c6_lock_discipline_witness :
    (get_lock_indices hfId 5 16).1 ≤ (get_lock_indices hfId 5 16).2 ∧
    (get_lock_indices hfId 5 16
        = (h1 hfId 5 16 % NUM_LOCKS, h2 hfId 5 16 % NUM_LOCKS) ∨
     get_lock_indices hfId 5 16
        = (h2 hfId 5 16 % NUM_LOCKS, h1 hfId 5 16 % NUM_LOCKS)) ∧
    ((get_lock_indices hfId 5 16).1 = (get_lock_indices hfId 5 16).2 →
      opLockSeq hfId 5 16 = [(get_lock_indices hfId 5 16).1]) ∧
    ((get_lock_indices hfId 5 16).1 ≠ (get_lock_indices hfId 5 16).2 →
      opLockSeq hfId 5 16 = [(get_lock_indices hfId 5 16).1, (get_lock_indices hfId 5 16).2]) ∧
    List.Chain' (· < ·) (opLockSeq hfId 5 16) ∧
    resizeLockSeq = List.range NUM_LOCKS ∧
    List.Chain' (· < ·) resizeLockSeq :=
  c6_lock_discipline hfId 5 16 (by decide)

/-- C9: with published capacity 0 (the constructor's failed-allocation
marker), `add`, `remove` and `contains` return `false` and leave the state
untouched without reading any slot, no resize is attempted, and both hash
functions return 0 instead of evaluating a modulo by zero. -/
theorem c9_zero_capacity (hf : Nat → Nat) (s : HashSet) (x : Nat)
    (h : s.capacity = 0) :
    add hf s x = (false, s) ∧ remove hf s x = (false, s) ∧
    contains hf s x = false ∧ addResizes hf s x = 0 ∧
    h1 hf x 0 = 0 ∧ h2 hf x 0 = 0 := by
  have hstep : addLoop hf 2 x s = (false, s, 0) := by
    simp only [addLoop]
    rw [if_pos h]
  refine ⟨?_, ?_, ?_, ?_, rfl, rfl⟩
  · unfold add
    rw [hstep]
  · unfold remove
    rw [if_pos h]
  · unfold contains
    rw [if_pos h]
  · unfold addResizes
    rw [hstep]

/-- Witness for C9 at the explicit zero-capacity state. -/
theorem c9_zero_capacity_witness :
    add hfId (⟨[], [], 0, 0⟩ : HashSet) 7 = (false, ⟨[], [], 0, 0⟩) ∧
    remove hfId (⟨[], [], 0, 0⟩ : HashSet) 7 = (false, ⟨[], [], 0, 0⟩) ∧
    contains hfId (⟨[], [], 0, 0⟩ : HashSet) 7 = false ∧
    addResizes hfId (⟨[], [], 0, 0⟩ : HashSet) 7 = 0 ∧
    h1 hfId 7 0 = 0 ∧ h2 hfId 7 0 = 0 :=
  c9_zero_capacity hfId ⟨[], [], 0, 0⟩ 7 rfl


/-! ### Capacity evolution -/

theorem resize_eq_general (hf : Nat → Nat) (s : HashSet)
    (hceil : ¬CAP_CEILING < s.capacity) :
    resize hf s
      = (if (rehashPass hf (if s.capacity = 0 then 16 else s.capacity * 2) s.t1 s.capacity (rehashPass hf (if s.capacity = 0 then 16 else s.capacity * 2) s.t0 s.capacity ⟨List.replicate (if s.capacity = 0 then 16 else s.capacity * 2) none, List.replicate (if s.capacity = 0 then 16 else s.capacity * 2) none, 0, 0⟩).2).2.fails = 0
         then ⟨(rehashPass hf (if s.capacity = 0 then 16 else s.capacity * 2) s.t1 s.capacity (rehashPass hf (if s.capacity = 0 then 16 else s.capacity * 2) s.t0 s.capacity ⟨List.replicate (if s.capacity = 0 then 16 else s.capacity * 2) none, List.replicate (if s.capacity = 0 then 16 else s.capacity * 2) none, 0, 0⟩).2).2.nt0, (rehashPass hf (if s.capacity = 0 then 16 else s.capacity * 2) s.t1 s.capacity (rehashPass hf (if s.capacity = 0 then 16 else s.capacity * 2) s.t0 s.capacity ⟨List.replicate (if s.capacity = 0 then 16 else s.capacity * 2) none, List.replicate (if s.capacity = 0 then 16 else s.capacity * 2) none, 0, 0⟩).2).2.nt1, (if s.capacity = 0 then 16 else s.capacity * 2), (rehashPass hf (if s.capacity = 0 then 16 else s.capacity * 2) s.t1 s.capacity (rehashPass hf (if s.capacity = 0 then 16 else s.capacity * 2) s.t0 s.capacity ⟨List.replicate (if s.capacity = 0 then 16 else s.capacity * 2) none, List.replicate (if s.capacity = 0 then 16 else s.capacity * 2) none, 0, 0⟩).2).2.found⟩
         else ⟨(rehashPass hf (if s.capacity = 0 then 16 else s.capacity * 2) s.t0 s.capacity ⟨List.replicate (if s.capacity = 0 then 16 else s.capacity * 2) none, List.replicate (if s.capacity = 0 then 16 else s.capacity * 2) none, 0, 0⟩).1, (rehashPass hf (if s.capacity = 0 then 16 else s.capacity * 2) s.t1 s.capacity (rehashPass hf (if s.capacity = 0 then 16 else s.capacity * 2) s.t0 s.capacity ⟨List.replicate (if s.capacity = 0 then 16 else s.capacity * 2) none, List.replicate (if s.capacity = 0 then 16 else s.capacity * 2) none, 0, 0⟩).2).1, s.capacity, s.current_size⟩) := by
  unfold resize
  rw [if_neg hceil]

theorem resize_capacity (hf : Nat → Nat) (s : HashSet) :
    (resize hf s).capacity = s.capacity ∨
    ((resize hf s).capacity = (if s.capacity = 0 then 16 else 2 * s.capacity) ∧
     (resize hf s).capacity ≠ s.capacity) := by
  by_cases hceil : CAP_CEILING < s.capacity
  · rw [resize_ceiling hf s hceil]
    left
    rfl
  · rw [resize_eq_general hf s hceil]
    by_cases hfail : (rehashPass hf (if s.capacity = 0 then 16 else s.capacity * 2) s.t1 s.capacity (rehashPass hf (if s.capacity = 0 then 16 else s.capacity * 2) s.t0 s.capacity ⟨List.replicate (if s.capacity = 0 then 16 else s.capacity * 2) none, List.replicate (if s.capacity = 0 then 16 else s.capacity * 2) none, 0, 0⟩).2).2.fails = 0
    · rw [if_pos hfail]
      right
      constructor
      · show (if s.capacity = 0 then 16 else s.capacity * 2)
            = (if s.capacity = 0 then 16 else 2 * s.capacity)
        by_cases hc0 : s.capacity = 0
        · rw [if_pos hc0, if_pos hc0]
        · rw [if_neg hc0, if_neg hc0]
          omega
      · show (if s.capacity = 0 then 16 else s.capacity * 2) ≠ s.capacity
        by_cases hc0 : s.capacity = 0
        · rw [if_pos hc0, hc0]
          omega
        · rw [if_neg hc0]
          unfold CAP_CEILING at hceil
          omega
    · rw [if_neg hfail]
      left
      rfl

theorem addLoop1_shape (hf : Nat → Nat) (y : Nat) (t : HashSet) :
    (addLoop hf 1 y t).2.1.capacity = t.capacity ∧ (addLoop hf 1 y t).2.2 = 0 := by
  by_cases h0 : t.capacity = 0
  · have hstep : addLoop hf 1 y t = (false, t, 0) := by
      simp only [addLoop]
      rw [if_pos h0]
    rw [hstep]
    exact ⟨rfl, rfl⟩
  · by_cases hct : contains_aux hf y t.capacity t.t0 t.t1 = true
    · have hstep : addLoop hf 1 y t = (false, t, 0) := by
        simp only [addLoop]
        rw [if_neg h0, if_pos hct]
      rw [hstep]
      exact ⟨rfl, rfl⟩
    · cases hres : kickLoop hf t.capacity MAX_KICK_LIMIT y 0 t.t0 t.t1 with
      | placed a b =>
        have hstep : addLoop hf 1 y t
            = (true, ⟨a, b, t.capacity, incSize t.current_size⟩, 0) := by
          simp only [addLoop]
          rw [if_neg h0, if_neg hct, hres]
        rw [hstep]
        exact ⟨rfl, rfl⟩
      | noslot cur a b =>
        have hstep : addLoop hf 1 y t
            = (false, ⟨a, b, t.capacity, t.current_size⟩, 0) := by
          simp only [addLoop]
          rw [if_neg h0, if_neg hct, hres]
          rfl
        rw [hstep]
        exact ⟨rfl, rfl⟩
      | oob a b =>
        have hstep : addLoop hf 1 y t
            = (false, ⟨a, b, t.capacity, t.current_size⟩, 0) := by
          simp only [addLoop]
          rw [if_neg h0, if_neg hct, hres]
          rfl
        rw [hstep]
        exact ⟨rfl, rfl⟩

theorem addLoop2_shape (hf : Nat → Nat) (x : Nat) (s : HashSet) :
    ((addLoop hf 2 x s).2.1.capacity = s.capacity ∧ (addLoop hf 2 x s).2.2 = 0) ∨
    (∃ t0' t1', (addLoop hf 2 x s).2.1.capacity
        = (resize hf ⟨t0', t1', s.capacity, s.current_size⟩).capacity ∧
      (addLoop hf 2 x s).2.2 = 1) := by
  by_cases h0 : s.capacity = 0
  · have hstep : addLoop hf 2 x s = (false, s, 0) := by
      simp only [addLoop]
      rw [if_pos h0]
    rw [hstep]
    exact Or.inl ⟨rfl, rfl⟩
  · by_cases hct : contains_aux hf x s.capacity s.t0 s.t1 = true
    · have hstep : addLoop hf 2 x s = (false, s, 0) := by
        simp only [addLoop]
        rw [if_neg h0, if_pos hct]
      rw [hstep]
      exact Or.inl ⟨rfl, rfl⟩
    · cases hres : kickLoop hf s.capacity MAX_KICK_LIMIT x 0 s.t0 s.t1 with
      | placed a b =>
        have hstep : addLoop hf 2 x s
            = (true, ⟨a, b, s.capacity, incSize s.current_size⟩, 0) := by
          simp only [addLoop]
          rw [if_neg h0, if_neg hct, hres]
        rw [hstep]
        exact Or.inl ⟨rfl, rfl⟩
      | noslot cur a b =>
        have hstep : addLoop hf 2 x s
            = ((addLoop hf 1 cur (resize hf ⟨a, b, s.capacity, s.current_size⟩)).1,
               (addLoop hf 1 cur (resize hf ⟨a, b, s.capacity, s.current_size⟩)).2.1,
               (addLoop hf 1 cur (resize hf ⟨a, b, s.capacity, s.current_size⟩)).2.2 + 1) := by
          simp only [addLoop]
          rw [if_neg h0, if_neg hct, hres]
          rfl
        rw [hstep]
        right
        refine ⟨a, b, ?_, ?_⟩
        · show (addLoop hf 1 cur (resize hf ⟨a, b, s.capacity, s.current_size⟩)).2.1.capacity
              = (resize hf ⟨a, b, s.capacity, s.current_size⟩).capacity
          exact (addLoop1_shape hf cur _).1
        · show (addLoop hf 1 cur (resize hf ⟨a, b, s.capacity, s.current_size⟩)).2.2 + 1 = 1
          rw [(addLoop1_shape hf cur _).2]
      | oob a b =>
        have hstep : addLoop hf 2 x s
            = ((addLoop hf 1 x (resize hf ⟨a, b, s.capacity, s.current_size⟩)).1,
               (addLoop hf 1 x (resize hf ⟨a, b, s.capacity, s.current_size⟩)).2.1,
               (addLoop hf 1 x (resize hf ⟨a, b, s.capacity, s.current_size⟩)).2.2 + 1) := by
          simp only [addLoop]
          rw [if_neg h0, if_neg hct, hres]
          rfl
        rw [hstep]
        right
        refine ⟨a, b, ?_, ?_⟩
        · show (addLoop hf 1 x (resize hf ⟨a, b, s.capacity, s.current_size⟩)).2.1.capacity
              = (resize hf ⟨a, b, s.capacity, s.current_size⟩).capacity
          exact (addLoop1_shape hf x _).1
        · show (addLoop hf 1 x (resize hf ⟨a, b, s.capacity, s.current_size⟩)).2.2 + 1 = 1
          rw [(addLoop1_shape hf x _).2]

theorem remove_capacity (hf : Nat → Nat) (s : HashSet) (x : Nat) :
    (remove hf s x).2.capacity = s.capacity := by
  unfold remove
  by_cases h0 : s.capacity = 0
  · rw [if_pos h0]
  · rw [if_neg h0]
    by_cases hc1 : h1 hf x s.capacity < s.capacity ∧ h1 hf x s.capacity < s.t0.length ∧
        s.t0.getD (h1 hf x s.capacity) none = some x
    · rw [if_pos hc1]
    · rw [if_neg hc1]
      by_cases hc2 : h2 hf x s.capacity < s.capacity ∧ h2 hf x s.capacity < s.t1.length ∧
          s.t1.getD (h2 hf x s.capacity) none = some x
      · rw [if_pos hc2]
      · rw [if_neg hc2]

/-- C7: a resize that changes the published capacity sets it to exactly
twice the old capacity (16 from the zero marker); `add` either leaves the
capacity unchanged or doubles it through its single internal resize;
`remove` never changes it; and construction publishes the requested
capacity (16 for a request of 0).  These are the only capacity changes. -/
theorem c7_capacity_doubling (hf : Nat → Nat) (s : HashSet) (x c : Nat) :
    ((resize hf s).capacity ≠ s.capacity →
      (resize hf s).capacity = (if s.capacity = 0 then 16 else 2 * s.capacity)) ∧
    ((add hf s x).2.capacity = s.capacity ∨
      (add hf s x).2.capacity = (if s.capacity = 0 then 16 else 2 * s.capacity)) ∧
    (remove hf s x).2.capacity = s.capacity ∧
    (create c).capacity = (if c = 0 then 16 else c) := by
  refine ⟨?_, ?_, remove_capacity hf s x, rfl⟩
  · intro hne
    rcases resize_capacity hf s with hsame | ⟨hdb, _⟩
    · exact absurd hsame hne
    · exact hdb
  · rcases addLoop2_shape hf x s with ⟨hcap, _⟩ | ⟨t0', t1', hcap, _⟩
    · left
      exact hcap
    · have hmid := resize_capacity hf (⟨t0', t1', s.capacity, s.current_size⟩ : HashSet)
      rcases hmid with hsame | ⟨hdb, _⟩
      · left
        show (addLoop hf 2 x s).2.1.capacity = s.capacity
        rw [hcap, hsame]
      · right
        show (addLoop hf 2 x s).2.1.capacity
            = (if s.capacity = 0 then 16 else 2 * s.capacity)
        rw [hcap, hdb]

/-- Witness for C7: on the state `⟨[some 3], [none], 1, 1⟩` the resize
succeeds and doubles the capacity from 1 to 2. -/
theorem c7_capacity_doubling_witness :
    (resize hfId (⟨[some 3], [none], 1, 1⟩ : HashSet)).capacity
      = (if (1 : Nat) = 0 then 16 else 2 * 1) :=
  (c7_capacity_doubling hfId ⟨[some 3], [none], 1, 1⟩ 9 1).1 (by decide)

/-- C8: above the hard capacity ceiling `1 << 29`, `resize` aborts before
touching anything — the state is returned exactly unchanged — the
triggering `add` performs at most one (refused) resize rather than
retrying, and the published capacity does not grow. -/
theorem c8_capacity_ceiling (hf : Nat → Nat) (s : HashSet) (x : Nat)
    (h : CAP_CEILING < s.capacity) :
    resize hf s = s ∧ (add hf s x).2.capacity = s.capacity ∧
    addResizes hf s x ≤ 1 := by
  refine ⟨resize_ceiling hf s h, ?_, ?_⟩
  · rcases addLoop2_shape hf x s with ⟨hcap, _⟩ | ⟨t0', t1', hcap, _⟩
    · exact hcap
    · have hid := resize_ceiling hf (⟨t0', t1', s.capacity, s.current_size⟩ : HashSet) h
      rw [hid] at hcap
      exact hcap
  · show (addLoop hf 2 x s).2.2 ≤ 1
    rcases addLoop2_shape hf x s with ⟨_, hz⟩ | ⟨_, _, _, ho⟩
    · omega
    · omega

/-- Witness for C8 at an explicit state just above the ceiling. -/
theorem c8_capacity_ceiling_witness :
    resize hfId (⟨[], [], 2 ^ 29 + 1, 0⟩ : HashSet) = ⟨[], [], 2 ^ 29 + 1, 0⟩ ∧
    (add hfId (⟨[], [], 2 ^ 29 + 1, 0⟩ : HashSet) 5).2.capacity
      = (⟨[], [], 2 ^ 29 + 1, 0⟩ : HashSet).capacity ∧
    addResizes hfId (⟨[], [], 2 ^ 29 + 1, 0⟩ : HashSet) 5 ≤ 1 :=
  c8_capacity_ceiling hfId ⟨[], [], 2 ^ 29 + 1, 0⟩ 5 (by decide)


/-- C5: the operation `remove(x)` returns `true`, clears the hit slot, and decrements the
live counter exactly when `x` occupies one of its two candidate slots
(`h1` in table 0, else `h2` in table 1) under the current capacity;
otherwise it returns `false` and leaves the state unchanged. -/
theorem c5_remove_contract (hf : Nat → Nat) (s : HashSet) (x : Nat)
    (hWF : WF hf s) :
    ((remove hf s x).1 = true ↔
      (s.t0.getD (h1 hf x s.capacity) none = some x ∨
       s.t1.getD (h2 hf x s.capacity) none = some x)) ∧
    (s.t0.getD (h1 hf x s.capacity) none = some x →
      remove hf s x = (true, ⟨s.t0.set (h1 hf x s.capacity) none, s.t1,
        s.capacity, decSize s.current_size⟩)) ∧
    (s.t0.getD (h1 hf x s.capacity) none ≠ some x →
      s.t1.getD (h2 hf x s.capacity) none = some x →
      remove hf s x = (true, ⟨s.t0, s.t1.set (h2 hf x s.capacity) none,
        s.capacity, decSize s.current_size⟩)) ∧
    (s.t0.getD (h1 hf x s.capacity) none ≠ some x →
      s.t1.getD (h2 hf x s.capacity) none ≠ some x →
      remove hf s x = (false, s)) ∧
    ((remove hf s x).1 = true →
      (remove hf s x).2.current_size + 1 = s.current_size) := by
  obtain ⟨⟨hpos, hc⟩, hcapb, hsz⟩ := wf_parts hf s hWF
  have h0 : ¬s.capacity = 0 := by omega
  have hsm : s.current_size + 1 < U64 := wf_size_small hf s hWF
  have hlt1 : h1 hf x s.capacity < s.capacity := h1_lt hf x s.capacity hpos
  have hlt2 : h2 hf x s.capacity < s.capacity := h2_lt hf x s.capacity hpos
  by_cases hg1 : s.t0.getD (h1 hf x s.capacity) none = some x
  · have hcond1 : h1 hf x s.capacity < s.capacity ∧
        h1 hf x s.capacity < s.t0.length ∧
        s.t0.getD (h1 hf x s.capacity) none = some x :=
      ⟨hlt1, by rw [hc.len0]; exact hlt1, hg1⟩
    have hstep : remove hf s x
        = (true, ⟨s.t0.set (h1 hf x s.capacity) none, s.t1, s.capacity,
            decSize s.current_size⟩) := by
      unfold remove
      rw [if_neg h0, if_pos hcond1]
    have hszpos : 0 < s.current_size := by
      have hc1 := cnt_pos_of_getD s.t0 _ x hg1
      have hc2 := cnt_le_occCount x s.t0
      omega
    have hdec : decSize s.current_size = s.current_size - 1 :=
      decSize_eq s.current_size hszpos (by omega)
    refine ⟨?_, fun _ => hstep, fun hn _ => absurd hg1 hn, fun hn _ => absurd hg1 hn, ?_⟩
    · rw [hstep]
      exact ⟨fun _ => Or.inl hg1, fun _ => rfl⟩
    · intro _
      rw [hstep]
      show decSize s.current_size + 1 = s.current_size
      omega
  · by_cases hg2 : s.t1.getD (h2 hf x s.capacity) none = some x
    · have hcond1 : ¬(h1 hf x s.capacity < s.capacity ∧
          h1 hf x s.capacity < s.t0.length ∧
          s.t0.getD (h1 hf x s.capacity) none = some x) := by
        intro hco
        exact hg1 hco.2.2
      have hcond2 : h2 hf x s.capacity < s.capacity ∧
          h2 hf x s.capacity < s.t1.length ∧
          s.t1.getD (h2 hf x s.capacity) none = some x :=
        ⟨hlt2, by rw [hc.len1]; exact hlt2, hg2⟩
      have hstep : remove hf s x
          = (true, ⟨s.t0, s.t1.set (h2 hf x s.capacity) none, s.capacity,
              decSize s.current_size⟩) := by
        unfold remove
        rw [if_neg h0, if_neg hcond1, if_pos hcond2]
      have hszpos : 0 < s.current_size := by
        have hc1 := cnt_pos_of_getD s.t1 _ x hg2
        have hc2 := cnt_le_occCount x s.t1
        omega
      have hdec : decSize s.current_size = s.current_size - 1 :=
        decSize_eq s.current_size hszpos (by omega)
      refine ⟨?_, fun hgg => absurd hgg hg1, fun _ _ => hstep,
        fun _ hn => absurd hg2 hn, ?_⟩
      · rw [hstep]
        exact ⟨fun _ => Or.inr hg2, fun _ => rfl⟩
      · intro _
        rw [hstep]
        show decSize s.current_size + 1 = s.current_size
        omega
    · have hcond1 : ¬(h1 hf x s.capacity < s.capacity ∧
          h1 hf x s.capacity < s.t0.length ∧
          s.t0.getD (h1 hf x s.capacity) none = some x) := by
        intro hco
        exact hg1 hco.2.2
      have hcond2 : ¬(h2 hf x s.capacity < s.capacity ∧
          h2 hf x s.capacity < s.t1.length ∧
          s.t1.getD (h2 hf x s.capacity) none = some x) := by
        intro hco
        exact hg2 hco.2.2
      have hstep : remove hf s x = (false, s) := by
        unfold remove
        rw [if_neg h0, if_neg hcond1, if_neg hcond2]
      refine ⟨?_, fun hgg => absurd hgg hg1, fun _ hgg => absurd hgg hg2,
        fun _ _ => hstep, ?_⟩
      · rw [hstep]
        constructor
        · intro hff
          cases hff
        · intro hor
          rcases hor with hgg | hgg
          · exact absurd hgg hg1
          · exact absurd hgg hg2
      · intro hff
        rw [hstep] at hff
        cases hff

/-- Witness for C5: removing the present key 0 from the well-formed
single-element state succeeds. -/
theorem c5_remove_contract_witness :
    (remove hfId (⟨[some 0], [none], 1, 1⟩ : HashSet) 0).1 = true :=
  ((c5_remove_contract hfId ⟨[some 0], [none], 1, 1⟩ 0 (by decide)).1).mpr
    (Or.inl (by decide))

/-- C3: on a well-formed quiescent state, a resize that commits (observable
as a changed published capacity) preserves `contains` for every key present
before, and preserves the value returned by `size()`. -/
theorem c3_resize_preserves_membership (hf : Nat → Nat) (s : HashSet) (k : Nat)
    (hWF : WF hf s) (hmem : contains hf s k = true)
    (hsucc : (resize hf s).capacity ≠ s.capacity) :
    contains hf (resize hf s) k = true ∧
    (resize hf s).current_size = s.current_size := by
  obtain ⟨hInv, hcapb, hsz⟩ := wf_parts hf s hWF
  have hpos : 0 < s.capacity := hInv.1
  rcases resize_spec hf s hInv with he | ⟨hcap, _, _⟩ | ⟨hcap, hI2, hcnt, hfound⟩
  · rw [he] at hsucc
    exact absurd rfl hsucc
  · exact absurd hcap hsucc
  · have hcnt1 : 1 ≤ cnt k s.t0 + cnt k s.t1 := by
      unfold contains at hmem
      rw [if_neg (by omega)] at hmem
      unfold contains_aux at hmem
      rw [if_neg (by omega)] at hmem
      simp only [Bool.or_eq_true, Bool.and_eq_true, decide_eq_true_eq,
        beq_iff_eq] at hmem
      rcases hmem with ⟨_, hgd⟩ | ⟨_, hgd⟩
      · have := cnt_pos_of_getD s.t0 _ k hgd
        omega
      · have := cnt_pos_of_getD s.t1 _ k hgd
        omega
    have hpos2 : 0 < (resize hf s).capacity := hI2.1
    have hcnt2 : 1 ≤ cnt k (resize hf s).t0 + cnt k (resize hf s).t1 := by
      rw [hcnt k]
      omega
    constructor
    · unfold contains
      rw [if_neg (by omega)]
      exact contains_aux_of_cnt hf (resize hf s).capacity (resize hf s).t0
        (resize hf s).t1 k hpos2 hI2.2 hcnt2
    · rw [hfound, hsz]

/-- Witness for C3: resizing the well-formed one-element state of capacity 1
doubles the capacity and key 3 stays present with the size unchanged. -/
theorem c3_resize_preserves_membership_witness :
    contains hfId (resize hfId (⟨[some 3], [none], 1, 1⟩ : HashSet)) 3 = true ∧
    (resize hfId (⟨[some 3], [none], 1, 1⟩ : HashSet)).current_size
      = (⟨[some 3], [none], 1, 1⟩ : HashSet).current_size :=
  c3_resize_preserves_membership hfId ⟨[some 3], [none], 1, 1⟩ 3
    (by decide) (by decide) (by decide)


/-- C1 counterexample: in the reachable state `c1S` the key 9 is absent,
yet `add 9` returns `false` — the displacement chain exhausts its 100-kick
budget at capacity 2, the intervening resize commits at capacity 4, and the
second chain exhausts the budget again, so the bounded retry loop gives up. -/
theorem c1_add_counterexample :
    Reachable hfId c1S ∧ contains hfId c1S 9 = false ∧
    (add hfId c1S 9).1 = false := by
  refine ⟨?_, by decide, by decide⟩
  exact Reachable.add _ 5 (Reachable.add _ 1 (Reachable.create 2))

/-- C1 (amended): on a well-formed state, `add(x)` of a present key returns
`false` and leaves the state exactly unchanged; if `x` is absent and the
first displacement chain places its item within the kick limit, `add(x)`
returns `true`, afterwards `contains(x)` holds, and `size()` is exactly one
larger.  (When the kick and resize-retry budget is exhausted, `add` may
return `false` for an absent key, as the counterexample shows.) -/
theorem c1_add_amended (hf : Nat → Nat) (s : HashSet) (x : Nat)
    (hWF : WF hf s) :
    (contains hf s x = true → add hf s x = (false, s)) ∧
    (contains hf s x = false →
      ∀ a b, kickLoop hf s.capacity MAX_KICK_LIMIT x 0 s.t0 s.t1
          = KickRes.placed a b →
        (add hf s x).1 = true ∧ contains hf (add hf s x).2 x = true ∧
        (add hf s x).2.current_size = s.current_size + 1) := by
  obtain ⟨⟨hpos, hc⟩, hcapb, hsz⟩ := wf_parts hf s hWF
  have h0 : ¬s.capacity = 0 := by omega
  constructor
  · intro hct
    have hct' : contains_aux hf x s.capacity s.t0 s.t1 = true := by
      unfold contains at hct
      rwa [if_neg h0] at hct
    have hstep : addLoop hf 2 x s = (false, s, 0) := by
      simp only [addLoop]
      rw [if_neg h0, if_pos hct']
    unfold add
    rw [hstep]
  · intro hcf a b hplaced
    have hcf' : contains_aux hf x s.capacity s.t0 s.t1 = false := by
      unfold contains at hcf
      rwa [if_neg h0] at hcf
    have hfr := cnt_zero_of_not_contains hf s.capacity s.t0 s.t1 x hpos hc hcf'
    have hks := kickLoop_spec hf s.capacity hpos MAX_KICK_LIMIT x 0 s.t0 s.t1
      hc hfr (Or.inl rfl)
    rw [hplaced] at hks
    obtain ⟨hI, hC, hO⟩ := hks
    have hstep : addLoop hf 2 x s
        = (true, ⟨a, b, s.capacity, incSize s.current_size⟩, 0) := by
      simp only [addLoop]
      rw [if_neg h0,
        if_neg (show ¬contains_aux hf x s.capacity s.t0 s.t1 = true by
          rw [hcf']
          exact Bool.false_ne_true), hplaced]
    have hsm : s.current_size + 1 < U64 := wf_size_small hf s hWF
    have hinc : incSize s.current_size = s.current_size + 1 :=
      incSize_eq s.current_size hsm
    have hcx : 1 ≤ cnt x a + cnt x b := by
      have := hC x
      rw [if_pos rfl] at this
      omega
    refine ⟨?_, ?_, ?_⟩
    · unfold add
      rw [hstep]
    · unfold add
      rw [hstep]
      show contains hf (⟨a, b, s.capacity, incSize s.current_size⟩ : HashSet) x = true
      unfold contains
      rw [if_neg h0]
      exact contains_aux_of_cnt hf s.capacity a b x hpos hI hcx
    · unfold add
      rw [hstep]
      show incSize s.current_size = s.current_size + 1
      exact hinc

/-- Witness for C1 (amended): adding key 0 to the empty well-formed set of
capacity 1 places it on the first kick. -/
theorem c1_add_amended_witness :
    (add hfId (⟨[none], [none], 1, 0⟩ : HashSet) 0).1 = true ∧
    contains hfId (add hfId (⟨[none], [none], 1, 0⟩ : HashSet) 0).2 0 = true ∧
    (add hfId (⟨[none], [none], 1, 0⟩ : HashSet) 0).2.current_size
      = (⟨[none], [none], 1, 0⟩ : HashSet).current_size + 1 :=
  (c1_add_amended hfId ⟨[none], [none], 1, 0⟩ 0 (by decide)).2 (by decide)
    [some 0] [none] (by decide)

/-- C2: evaluating `resize` at `c2S` shows the failure path is *not* a
no-op: the rehash of key 9 exhausts the relocation bound, the resize
aborts keeping the old capacity 2 and the old counter 3, but every visited
slot of the old tables has been cleared — all three elements are lost and
none of them is `contains`-visible afterwards, contradicting the claimed
rollback (and the code's own "Table remains unchanged" message). -/
theorem c2_failed_resize_clears_tables :
    (resize hfId c2S).capacity = c2S.capacity ∧
    (resize hfId c2S).current_size = c2S.current_size ∧
    (resize hfId c2S).t0 ≠ c2S.t0 ∧
    occCount c2S.t0 + occCount c2S.t1 = 3 ∧
    occCount (resize hfId c2S).t0 + occCount (resize hfId c2S).t1 = 0 ∧
    cnt 1 c2S.t0 = 1 ∧ cnt 1 (resize hfId c2S).t0 + cnt 1 (resize hfId c2S).t1 = 0 := by
  decide

end StripedCuckoo
